import Mathlib

/-!
A verification development for the `pz-data` parser library: a shallow
embedding of its nom-based parser combinators over `List Char`, together
with proofs about the `block` / `module` / `recipe` grammars.

Modelling conventions:
* A nom parser `&str -> IResult<&str, O, E>` is embedded as
  `List Char → Option (List Char × O)`; a successful `Ok((rest, o))`
  becomes `some (rest, o)`, any `Err` becomes `none` (error payloads are
  not modelled).
* nom character classes are ASCII, as in nom's `AsChar` impl for `char`.
* Rust's `str::trim_end` trims Unicode `White_Space`; the predicate
  `isRustWhitespace` lists exactly that set of code points.
* `f32` values are modelled by `F32`: exact rationals for decimal
  literals (ignoring f32 rounding/overflow, which no claim exercises)
  plus distinguished infinity and NaN values, which nom's `float`
  produces for the `inf` / `infinity` / `nan` spellings.
-/

set_option maxRecDepth 100000

abbrev Input := List Char

abbrev Parser (α : Type) := Input → Option (Input × α)

/-- Characters recognized by nom's `multispace0/1`: space, tab, CR, LF. -/
def isNomMultispace (c : Char) : Bool :=
  c = ' ' || c = '\t' || c = '\r' || c = '\n'

/-- Characters recognized by nom's `space0/1`: space and tab only. -/
def isNomSpace (c : Char) : Bool :=
  c = ' ' || c = '\t'

/-- The Unicode `White_Space` set, as used by Rust's `char::is_whitespace`
(hence by `str::trim_end` in `string_with_spaces_delimited_by_open_brace`). -/
def isRustWhitespace (c : Char) : Bool :=
  (0x09 ≤ c.toNat && c.toNat ≤ 0x0D) || c.toNat = 0x20 || c.toNat = 0x85 ||
  c.toNat = 0xA0 || c.toNat = 0x1680 ||
  (0x2000 ≤ c.toNat && c.toNat ≤ 0x200A) ||
  c.toNat = 0x2028 || c.toNat = 0x2029 || c.toNat = 0x202F ||
  c.toNat = 0x205F || c.toNat = 0x3000

/-- Sequencing of a parse step, Rust's `?` operator on `IResult`:
on success continue with the remaining input and the parsed value, on
failure propagate the failure. -/
def pstep {β γ : Type} (o : Option (Input × β)) (f : Input → β → Option γ) :
    Option γ :=
  match o with
  | none => none
  | some (i, x) => f i x

/-- nom's `alt` of two parsers: try the first, on failure the second. -/
def palt {α : Type} (p q : Parser α) : Parser α := fun input =>
  match p input with
  | some r => some r
  | none => q input

/-- nom's `opt`: never fails, wraps the result in `Option`. -/
def popt {α : Type} (p : Parser α) : Parser (Option α) := fun input =>
  match p input with
  | some (i, x) => some (i, some x)
  | none => some (input, none)

/-- nom's `map` on a parser result. -/
def pmap {α β : Type} (p : Parser α) (f : α → β) : Parser β := fun input =>
  pstep (p input) fun i x => some (i, f x)

/-- nom's `character::complete::char`. -/
def charP (c : Char) : Parser Char := fun input =>
  match input with
  | x :: r => if x = c then some (r, c) else none
  | [] => none

/-- nom's `bytes::complete::tag`: match a literal token at the head of the
input and consume it. -/
def tagP (t : List Char) : Parser (List Char) := fun input =>
  if t.isPrefixOf input then some (input.drop t.length, t) else none

/-- nom's `tag_no_case` (ASCII case folding, as nom does for `&str`). -/
def tagNoCaseP (t : List Char) : Parser (List Char) := fun input =>
  if (input.take t.length).length = t.length
      && ((input.take t.length).zip t).all
        (fun p => p.1.toLower = p.2.toLower) then
    some (input.drop t.length, input.take t.length)
  else none

/-- nom's `split_at_position1_complete`: split the input at the first
character satisfying `pred`; the part before it (which must be non-empty)
is the output.  In complete mode, if no character satisfies `pred` the
whole (non-empty) input is taken. -/
def splitAtPosition1Complete (pred : Char → Bool) : Parser (List Char) :=
  fun input =>
    if (input.takeWhile (fun c => !(pred c))).isEmpty then none
    else some (input.drop (input.takeWhile (fun c => !(pred c))).length,
               input.takeWhile (fun c => !(pred c)))

/-- nom's `multispace1`. -/
def multispace1 : Parser (List Char) :=
  splitAtPosition1Complete (fun c => !(isNomMultispace c))

/-- nom's `space1`. -/
def space1 : Parser (List Char) :=
  splitAtPosition1Complete (fun c => !(isNomSpace c))

/-- nom's `space0` (never fails). -/
def space0 : Parser (List Char) := fun input =>
  some (input.drop (input.takeWhile isNomSpace).length,
        input.takeWhile isNomSpace)

/-- nom's `alphanumeric1` (ASCII letters and digits, per nom's `AsChar`). -/
def alphanumeric1 : Parser (List Char) :=
  splitAtPosition1Complete (fun c => !(c.isAlphanum))

/-- nom's `digit1` (ASCII digits). -/
def digit1 : Parser (List Char) :=
  splitAtPosition1Complete (fun c => !(c.isDigit))

/-- `identifier1` from `src/lib.rs`: one or more characters that are
ASCII alphanumeric or `'.'`. -/
def identifier1 : Parser (List Char) :=
  splitAtPosition1Complete (fun c => if c.isAlphanum then false else c ≠ '.')

/-- `non_curly_brace` from `src/block.rs`: the non-empty run of
characters before the first `'{'` (the whole input when it has none). -/
def non_curly_brace : Parser (List Char) :=
  splitAtPosition1Complete (fun c => c = '{')

/-- Rust's `str::trim_end` on a character list: remove trailing
`White_Space` characters. -/
def rustTrimEnd : List Char → List Char
  | [] => []
  | c :: cs =>
    let r := rustTrimEnd cs
    if r.isEmpty && isRustWhitespace c then [] else c :: r

/-- `string_with_spaces_delimited_by_open_brace` from `src/block.rs`:
take the run before the first `'{'`, drop its final character (the
separator immediately before the brace), trim trailing whitespace, and
split the original input at that length. -/
def string_with_spaces_delimited_by_open_brace : Parser (List Char) :=
  fun input =>
    pstep (non_curly_brace input) fun _tail nameTrailingSpaceAndBrace =>
      let nameAndTrailingSpace := nameTrailingSpaceAndBrace.dropLast
      let trimmedName := rustTrimEnd nameAndTrailingSpace
      let nameLen := trimmedName.length
      some (input.drop nameLen, input.take nameLen)

/-- `block` from `src/block.rs`:
`delimited(pair(tag("{"), multispace1), item, pair(multispace1, tag("}")))`. -/
def block {α : Type} (item : Parser α) : Parser α := fun input =>
  pstep (tagP ['{'] input) fun input _ =>
  pstep (multispace1 input) fun input _ =>
  pstep (item input) fun input o =>
  pstep (multispace1 input) fun input _ =>
  pstep (tagP ['}'] input) fun input _ =>
  some (input, o)

/-- `unnamed_block` from `src/block.rs`: the tag, mandatory whitespace,
then a `block` of the item. -/
def unnamed_block {α : Type} (blockTag : List Char) (item : Parser α) :
    Parser α := fun input =>
  pstep (tagP blockTag input) fun input _ =>
  pstep (multispace1 input) fun input _ =>
  block item input

/-- `named_block` from `src/block.rs`: tag, `space1`, name extraction,
`multispace1`, then a `block` of the item. -/
def named_block {α : Type} (blockTag : List Char) (item : Parser α) :
    Parser (List Char × α) := fun input =>
  pstep (tagP blockTag input) fun input _ =>
  pstep (space1 input) fun input _ =>
  pstep (string_with_spaces_delimited_by_open_brace input) fun input name =>
  pstep (multispace1 input) fun input _ =>
  pstep (block item input) fun input parsedItem =>
  some (input, (name, parsedItem))

/-- Loop of nom's `separated_list1(multispace1, item)` after the first
item, with fuel.  Each iteration the separator must consume input (nom's
infinite-loop guard), so `input.length + 1` fuel always suffices. -/
def sepList1MsAux {α : Type} (item : Parser α) :
    Nat → Input → List α → Option (Input × List α)
  | 0, _, _ => none
  | fuel + 1, current, acc =>
    match multispace1 current with
    | none => some (current, acc)
    | some (i1, _) =>
      if i1.length = current.length then none
      else
        match item i1 with
        | none => some (current, acc)
        | some (i2, o) => sepList1MsAux item fuel i2 (acc ++ [o])

/-- nom's `separated_list1(multispace1, item)`. -/
def separated_list1_ms {α : Type} (item : Parser α) : Parser (List α) :=
  fun input =>
    pstep (item input) fun i o => sepList1MsAux item (input.length + 1) i [o]

/-- `named_block_repeated` from `src/block.rs`: a `named_block` whose
body is `separated_list1(multispace1, item)`. -/
def named_block_repeated {α : Type} (blockTag : List Char)
    (item : Parser α) : Parser (List Char × List α) :=
  named_block blockTag (separated_list1_ms item)

/-- `ModuleBlock` from `src/module.rs` (the owned `String` name is
modelled as `List Char`). -/
structure ModuleBlock (α : Type) where
  name : List Char
  definitions : List α
deriving DecidableEq

/-- `module` from `src/module.rs`:
`Parser::into(named_block_repeated("module", item))`. -/
def module {α : Type} (item : Parser α) : Parser (ModuleBlock α) :=
  fun input =>
    pstep (named_block_repeated ("module".toList) item input) fun rest p =>
      some (rest, ModuleBlock.mk p.1 p.2)

/-- `field_value` from `src/lib.rs`:
`space0`, the field name, `space0 sep space0`, the value, then `","`. -/
def field_value {α : Type} (fieldName sep : List Char) (value : Parser α) :
    Parser α := fun input =>
  pstep (space0 input) fun input _ =>
  pstep (tagP fieldName input) fun input _ =>
  pstep (space0 input) fun input _ =>
  pstep (tagP sep input) fun input _ =>
  pstep (space0 input) fun input _ =>
  pstep (value input) fun input v =>
  pstep (tagP [','] input) fun input _ =>
  some (input, v)

/-- `bool_value` from `src/lib.rs`:
`alt((map(tag("true"), ...), map(tag("false"), ...)))`. -/
def bool_value : Parser Bool :=
  palt (pmap (tagP ("true".toList)) fun _ => true)
    (pmap (tagP ("false".toList)) fun _ => false)

/-- Model of an `f32` value: exact rational for decimal text (f32
rounding and overflow are idealized away), plus infinities and NaN. -/
inductive F32 : Type where
  | finite (q : ℚ)
  | inf
  | negInf
  | nan
deriving DecidableEq

/-- Numeric value of a digit run. -/
def digitsVal (s : List Char) : ℕ :=
  s.foldl (fun a c => a * 10 + (c.toNat - 48)) 0

/-- Optional sign (`opt(alt((char('+'), char('-'))))`); returns whether
the sign was `'-'`. Never fails. -/
def signP : Parser Bool := fun input =>
  match input with
  | '+' :: r => some (r, false)
  | '-' :: r => some (r, true)
  | _ => some (input, false)

/-- The optional `'.' [digit1]` part of a float: the dot followed by the
(possibly empty) run of fraction digits. -/
def dotFrac : Parser (List Char) := fun input =>
  pstep (charP '.' input) fun r _ =>
  pstep (popt digit1 r) fun r2 od => some (r2, od.getD [])

/-- Mantissa of nom's `recognize_float`:
`digit1 [ '.' [digit1] ]  |  '.' digit1`.  Returns the combined digit
value `D` and the number `F` of fraction digits, so that the mantissa
denotes `D / 10 ^ F`. -/
def mantissaP : Parser (ℕ × ℕ) := palt
  (fun input =>
    pstep (digit1 input) fun i intDs =>
    pstep (popt dotFrac i) fun i2 ofr =>
    some (i2,
      (digitsVal intDs * 10 ^ (ofr.getD []).length + digitsVal (ofr.getD []),
       (ofr.getD []).length)))
  (fun input =>
    pstep (charP '.' input) fun r _ =>
    pstep (digit1 r) fun r2 ds => some (r2, (digitsVal ds, ds.length)))

/-- Exponent of nom's `recognize_float`: optional `(e|E) [sign] digit1`;
the digits after `e` are mandatory once `e` is seen (nom's `cut`).
Returns the exponent's sign and digit value (`(false, 0)` when absent). -/
def exponentP : Parser (Bool × ℕ) := fun input =>
  match input with
  | c :: r =>
    if c = 'e' || c = 'E' then
      pstep (signP r) fun r2 neg =>
      pstep (digit1 r2) fun r3 ds => some (r3, (neg, digitsVal ds))
    else some (input, (false, 0))
  | [] => some (input, (false, 0))

/-- The exact rational denoted by the decimal text
`±D/10^F × 10^±E`, built with `mkRat` so that it evaluates by kernel
reduction. -/
def decimalVal (neg : Bool) (D F : ℕ) (expNeg : Bool) (E : ℕ) : ℚ :=
  let numAbs : ℕ := if expNeg then D else D * 10 ^ E
  let den : ℕ := if expNeg then 10 ^ F * 10 ^ E else 10 ^ F
  mkRat (if neg then -(numAbs : ℤ) else (numAbs : ℤ)) den

/-- nom's `recognize_float` together with the exact value of the
recognized decimal text (Rust then converts that text with `FromStr`;
the conversion is modelled exactly, without f32 rounding). -/
def recognize_float_val : Parser ℚ := fun input =>
  pstep (signP input) fun i1 neg =>
  pstep (mantissaP i1) fun i2 m =>
  pstep (exponentP i2) fun i3 e =>
  some (i3, decimalVal neg m.1 m.2 e.1 e.2)

/-- nom's `number::complete::float`: a recognized decimal literal, or
one of the case-insensitive exceptional spellings `nan` / `inf` /
`infinity` (the `infinity` alternative is shadowed by `inf`, which
matches first, exactly as in nom). -/
def float : Parser F32 :=
  palt (pmap recognize_float_val F32.finite)
    (palt (pmap (tagNoCaseP ("nan".toList)) fun _ => F32.nan)
      (palt (pmap (tagNoCaseP ("inf".toList)) fun _ => F32.inf)
        (pmap (tagNoCaseP ("infinity".toList)) fun _ => F32.inf)))

/-- `Recipe` from `src/recipe.rs` (owned strings modelled as `List Char`). -/
structure Recipe : Type where
  name : List Char
  ingredients : List (List Char)
  result : List Char
  time : F32
  category : List Char
  need_to_be_learned : Bool
deriving DecidableEq

/-- `RecipeBody` from `src/recipe.rs`. -/
structure RecipeBody : Type where
  ingredients : List (List Char)
  result : List Char
  time : F32
  category : List Char
  need_to_be_learned : Bool
deriving DecidableEq

/-- `recipe_ingredient` from `src/recipe.rs`:
`terminated(identifier1, tag(","))`. -/
def recipe_ingredient : Parser (List Char) := fun input =>
  pstep (identifier1 input) fun input s =>
  pstep (tagP [','] input) fun input _ =>
  some (input, s)

/-- `recipe_body` from `src/recipe.rs`: the ingredient list, then the
four fields `Result`, `Time`, `Category`, `NeedToBeLearn` in exactly
that order, separated by mandatory whitespace. -/
def recipe_body : Parser RecipeBody := fun input =>
  pstep (separated_list1_ms recipe_ingredient input) fun input ingredients =>
  pstep (multispace1 input) fun input _ =>
  pstep (field_value ("Result".toList) [':'] alphanumeric1 input) fun input result =>
  pstep (multispace1 input) fun input _ =>
  pstep (field_value ("Time".toList) [':'] float input) fun input time =>
  pstep (multispace1 input) fun input _ =>
  pstep (field_value ("Category".toList) [':'] alphanumeric1 input) fun input category =>
  pstep (multispace1 input) fun input _ =>
  pstep (field_value ("NeedToBeLearn".toList) [':'] bool_value input) fun input learn =>
  some (input, RecipeBody.mk ingredients result time category learn)

/-- `recipe` from `src/recipe.rs`:
`Parser::into(named_block("recipe", recipe_body))`. -/
def recipe : Parser Recipe := fun input =>
  pstep (named_block ("recipe".toList) recipe_body input) fun rest p =>
    some (rest,
      Recipe.mk p.1 p.2.ingredients p.2.result p.2.time p.2.category
        p.2.need_to_be_learned)

/-! ### Basic lemmas about the parsing primitives -/

theorem pstep_eq_some {β γ : Type} {o : Option (Input × β)}
    {f : Input → β → Option γ} {r : γ} :
    pstep o f = some r ↔ ∃ i x, o = some (i, x) ∧ f i x = some r := by
  cases o with
  | none => simp [pstep]
  | some p => cases p with
    | mk i x =>
      constructor
      · intro h; exact ⟨i, x, rfl, h⟩
      · rintro ⟨i', x', h₁, h₂⟩
        cases h₁
        exact h₂

theorem pstep_none {β γ : Type} {o : Option (Input × β)}
    (f : Input → β → Option γ) (h : o = none) : pstep o f = none := by
  rw [h]; rfl

theorem pstep_some {β γ : Type} {o : Option (Input × β)} {i : Input} {x : β}
    (f : Input → β → Option γ) (h : o = some (i, x)) : pstep o f = f i x := by
  rw [h]; rfl

theorem tagP_append (t r : List Char) : tagP t (t ++ r) = some (r, t) := by
  unfold tagP
  rw [if_pos, List.drop_left]
  exact List.isPrefixOf_iff_prefix.2 (List.prefix_append t r)

theorem tagP_eq_some {t input rest v : List Char}
    (h : tagP t input = some (rest, v)) :
    input = t ++ rest ∧ v = t := by
  unfold tagP at h
  split at h
  case isTrue hp =>
    injection h with h'
    injection h' with h₁ h₂
    subst h₂
    obtain ⟨s, hs⟩ := List.isPrefixOf_iff_prefix.1 hp
    subst hs
    have : rest = s := by rw [← h₁, List.drop_left]
    subst this
    exact ⟨rfl, rfl⟩
  case isFalse => cases h

theorem tagP_cons_ne {a b : Char} {t l : List Char} (h : a ≠ b) :
    tagP (a :: t) (b :: l) = none := by
  unfold tagP
  rw [if_neg]
  intro hp
  obtain ⟨s, hs⟩ := List.isPrefixOf_iff_prefix.1 hp
  rw [List.cons_append] at hs
  injection hs with h₁ _
  exact h h₁

theorem tagP_nil_input {a : Char} {t : List Char} : tagP (a :: t) [] = none := by
  unfold tagP
  rw [if_neg]
  intro hp
  obtain ⟨s, hs⟩ := List.isPrefixOf_iff_prefix.1 hp
  cases hs

theorem takeWhile_append_of_all {p : Char → Bool} {l₁ : List Char}
    (l₂ : List Char) (h : ∀ c ∈ l₁, p c = true) :
    (l₁ ++ l₂).takeWhile p = l₁ ++ l₂.takeWhile p := by
  induction l₁ with
  | nil => simp
  | cons a t ih =>
    simp only [List.cons_append, List.takeWhile_cons]
    rw [if_pos (h a (by simp)), ih (fun c hc => h c (by simp [hc]))]

theorem takeWhile_cons_false {p : Char → Bool} {c : Char} (l : List Char)
    (h : p c = false) : (c :: l).takeWhile p = [] := by
  simp [List.takeWhile_cons, h]

theorem split1_append_stop {pred : Char → Bool} {l₁ : List Char}
    {c : Char} (l₂ : List Char) (h₁ : l₁ ≠ [])
    (hall : ∀ x ∈ l₁, pred x = false) (hc : pred c = true) :
    splitAtPosition1Complete pred (l₁ ++ c :: l₂) = some (c :: l₂, l₁) := by
  unfold splitAtPosition1Complete
  have ht : (l₁ ++ c :: l₂).takeWhile (fun x => !(pred x)) = l₁ := by
    rw [takeWhile_append_of_all (c :: l₂) (fun x hx => by simp [hall x hx]),
      takeWhile_cons_false _ (by simp [hc]), List.append_nil]
  simp only [ht]
  rw [if_neg (by simpa using h₁), List.drop_left]

theorem split1_all {pred : Char → Bool} {l : List Char} (h₁ : l ≠ [])
    (hall : ∀ x ∈ l, pred x = false) :
    splitAtPosition1Complete pred l = some ([], l) := by
  unfold splitAtPosition1Complete
  have ht : l.takeWhile (fun x => !(pred x)) = l := by
    rw [show l = l ++ [] by simp,
      takeWhile_append_of_all [] (fun x hx => by simp [hall x hx])]
    simp
  simp only [ht]
  rw [if_neg (by simpa using h₁), List.drop_length]

theorem split1_head_true {pred : Char → Bool} {c : Char} (l : List Char)
    (hc : pred c = true) :
    splitAtPosition1Complete pred (c :: l) = none := by
  unfold splitAtPosition1Complete
  rw [takeWhile_cons_false _ (by simp [hc])]
  rfl

theorem split1_nil {pred : Char → Bool} :
    splitAtPosition1Complete pred [] = none := rfl

theorem split1_eq_some {pred : Char → Bool} {input rest v : Input}
    (h : splitAtPosition1Complete pred input = some (rest, v)) :
    v = input.takeWhile (fun c => !(pred c)) ∧ v ≠ [] ∧
      rest = input.drop v.length ∧ input = v ++ rest := by
  unfold splitAtPosition1Complete at h
  split at h
  case isTrue => cases h
  case isFalse hne =>
    injection h with h'
    injection h' with h₁ h₂
    subst h₂
    refine ⟨rfl, by simpa using hne, h₁.symm, ?_⟩
    have hpre : input.takeWhile (fun c => !(pred c)) <+: input :=
      List.takeWhile_prefix _
    have htake : input.take (input.takeWhile (fun c => !(pred c))).length =
        input.takeWhile (fun c => !(pred c)) :=
      (List.prefix_iff_eq_take.1 hpre).symm
    conv_lhs =>
      rw [← List.take_append_drop
        (input.takeWhile (fun c => !(pred c))).length input]
    rw [htake, h₁]


example :
    module (tagP ("foo".toList)) ("module Base { foo foo foo }".toList) =
    some ([], ModuleBlock.mk ("Base".toList)
      ["foo".toList, "foo".toList, "foo".toList]) := by decide

theorem nomMultispace_isRustWhitespace {c : Char}
    (h : isNomMultispace c = true) : isRustWhitespace c = true := by
  simp only [isNomMultispace, Bool.or_eq_true, decide_eq_true_eq] at h
  rcases h with ((rfl | rfl) | rfl) | rfl <;> decide

theorem nomSpace_isNomMultispace {c : Char}
    (h : isNomSpace c = true) : isNomMultispace c = true := by
  simp only [isNomSpace, Bool.or_eq_true, decide_eq_true_eq] at h
  rcases h with rfl | rfl <;> decide

theorem isNomMultispace_ne_brace {c : Char}
    (h : isNomMultispace c = true) : c ≠ '{' := by
  simp only [isNomMultispace, Bool.or_eq_true, decide_eq_true_eq] at h
  rcases h with ((rfl | rfl) | rfl) | rfl <;> decide

theorem isRustWhitespace_ne_brace {c : Char}
    (h : isRustWhitespace c = true) : c ≠ '{' := by
  intro hc
  subst hc
  cases h.symm.trans (by decide : isRustWhitespace '{' = false)

theorem multispace1_append_stop (w : List Char) (c : Char) (l : List Char)
    (hw : w ≠ []) (hall : ∀ x ∈ w, isNomMultispace x = true)
    (hc : isNomMultispace c = false) :
    multispace1 (w ++ c :: l) = some (c :: l, w) :=
  split1_append_stop l hw (fun x hx => by simp [hall x hx]) (by simp [hc])

theorem multispace1_all {w : List Char} (hw : w ≠ [])
    (hall : ∀ x ∈ w, isNomMultispace x = true) :
    multispace1 w = some ([], w) :=
  split1_all hw (fun x hx => by simp [hall x hx])

theorem multispace1_head_not {c : Char} (l : List Char)
    (hc : isNomMultispace c = false) : multispace1 (c :: l) = none :=
  split1_head_true l (by simp [hc])

theorem multispace1_nil : multispace1 [] = none := rfl

theorem space1_append_stop (w : List Char) (c : Char) (l : List Char)
    (hw : w ≠ []) (hall : ∀ x ∈ w, isNomSpace x = true)
    (hc : isNomSpace c = false) :
    space1 (w ++ c :: l) = some (c :: l, w) :=
  split1_append_stop l hw (fun x hx => by simp [hall x hx]) (by simp [hc])

theorem space1_head_not {c : Char} (l : List Char)
    (hc : isNomSpace c = false) : space1 (c :: l) = none :=
  split1_head_true l (by simp [hc])

theorem multispace1_eq_some {input rest v : Input}
    (h : multispace1 input = some (rest, v)) :
    v ≠ [] ∧ input = v ++ rest ∧ (∀ x ∈ v, isNomMultispace x = true) := by
  obtain ⟨hv, hne, _hrest, happ⟩ := split1_eq_some h
  refine ⟨hne, happ, fun x hx => ?_⟩
  have := List.mem_takeWhile_imp (hv ▸ hx)
  simpa using this

/-! ### Lemmas about `rustTrimEnd` -/

theorem rustTrimEnd_cons (c : Char) (cs : List Char) :
    rustTrimEnd (c :: cs) =
      if (rustTrimEnd cs).isEmpty && isRustWhitespace c then []
      else c :: rustTrimEnd cs := rfl

theorem rustTrimEnd_all_ws {l : List Char}
    (h : ∀ c ∈ l, isRustWhitespace c = true) : rustTrimEnd l = [] := by
  induction l with
  | nil => rfl
  | cons a t ih =>
    rw [rustTrimEnd_cons, ih (fun c hc => h c (by simp [hc]))]
    simp [h a (by simp)]

theorem rustTrimEnd_eq_self : ∀ {l : List Char} (h : l ≠ []),
    isRustWhitespace (l.getLast h) = false → rustTrimEnd l = l
  | [], h, _ => absurd rfl h
  | [a], _, hl => by
    simp only [List.getLast_singleton] at hl
    simp [rustTrimEnd, hl]
  | a :: b :: t, _, hl => by
    rw [List.getLast_cons (by simp)] at hl
    have ih := rustTrimEnd_eq_self (by simp) hl
    rw [rustTrimEnd_cons, ih]
    simp

theorem rustTrimEnd_append_ws {l w : List Char}
    (hw : ∀ c ∈ w, isRustWhitespace c = true) :
    rustTrimEnd (l ++ w) = rustTrimEnd l := by
  induction l with
  | nil => simpa using rustTrimEnd_all_ws hw
  | cons a t ih => rw [List.cons_append, rustTrimEnd_cons, ih, rustTrimEnd_cons]

theorem rustTrimEnd_prefix_self : ∀ l : List Char, rustTrimEnd l <+: l
  | [] => List.prefix_refl []
  | a :: t => by
    rw [rustTrimEnd_cons]
    split
    · exact List.nil_prefix
    · exact List.cons_prefix_cons.2 ⟨rfl, rustTrimEnd_prefix_self t⟩

theorem rustTrimEnd_getLast?_not_ws : ∀ {l : List Char} {c : Char},
    (rustTrimEnd l).getLast? = some c → isRustWhitespace c = false := by
  intro l
  induction l with
  | nil => intro c h; cases h
  | cons a t ih =>
    intro c h
    rw [rustTrimEnd_cons] at h
    split at h
    case isTrue => cases h
    case isFalse hcond =>
      cases hr : rustTrimEnd t with
      | nil =>
        rw [hr] at h hcond
        simp only [List.getLast?_singleton, Option.some.injEq] at h
        subst h
        simpa using hcond
      | cons b t' =>
        rw [hr] at h
        rw [List.getLast?_cons_cons] at h
        exact ih (hr ▸ h)

theorem rustTrimEnd_eq_self' {l : List Char}
    (h : ∀ c, l.getLast? = some c → isRustWhitespace c = false) :
    rustTrimEnd l = l := by
  cases l with
  | nil => rfl
  | cons a t =>
    exact rustTrimEnd_eq_self (by simp)
      (h _ (List.getLast?_eq_getLast _ (by simp)))

/-! ### Lemmas about the name extraction -/

theorem swsdob_exact {N w rest : List Char} (hN : N ≠ []) (hNbrace : '{' ∉ N)
    (hNlast : ∀ c, N.getLast? = some c → isRustWhitespace c = false)
    (hw : w ≠ []) (hwall : ∀ c ∈ w, isRustWhitespace c = true) :
    string_with_spaces_delimited_by_open_brace (N ++ w ++ '{' :: rest) =
      some (w ++ '{' :: rest, N) := by
  have hnc : non_curly_brace (N ++ w ++ '{' :: rest) =
      some ('{' :: rest, N ++ w) := by
    apply split1_append_stop
    · simp [hN]
    · intro x hx
      apply decide_eq_false
      rcases List.mem_append.1 hx with hx | hx
      · exact fun hc => hNbrace (hc ▸ hx)
      · exact isRustWhitespace_ne_brace (hwall x hx)
    · simp
  unfold string_with_spaces_delimited_by_open_brace
  rw [pstep_some _ hnc]
  have hdl : (N ++ w).dropLast = N ++ w.dropLast := by
    cases w with
    | nil => exact absurd rfl hw
    | cons b w' => exact List.dropLast_append_cons
  have htrim : rustTrimEnd ((N ++ w).dropLast) = N := by
    rw [hdl, rustTrimEnd_append_ws (fun c hc =>
      hwall c (List.IsPrefix.subset (List.dropLast_prefix w) hc))]
    exact rustTrimEnd_eq_self' hNlast
  simp only [htrim]
  rw [List.append_assoc, List.drop_left, List.take_left]

theorem swsdob_head_brace (l : List Char) :
    string_with_spaces_delimited_by_open_brace ('{' :: l) = none := by
  unfold string_with_spaces_delimited_by_open_brace
  exact pstep_none _ (split1_head_true l (by simp))

theorem swsdob_nil :
    string_with_spaces_delimited_by_open_brace [] = none := rfl

theorem swsdob_eq_some {input rest nm : Input}
    (h : string_with_spaces_delimited_by_open_brace input = some (rest, nm)) :
    nm = rustTrimEnd ((input.takeWhile (fun c => !(decide (c = '{')))).dropLast)
      ∧ nm ++ rest = input := by
  unfold string_with_spaces_delimited_by_open_brace at h
  obtain ⟨tl, pre, h₁, h₂⟩ := pstep_eq_some.1 h
  obtain ⟨hpre, -, -, -⟩ := split1_eq_some h₁
  simp only at h₂
  injection h₂ with h₃
  injection h₃ with hrest hnm
  have hpre0 : rustTrimEnd pre.dropLast <+: input :=
    ((rustTrimEnd_prefix_self _).trans (List.dropLast_prefix pre)).trans
      (hpre ▸ List.takeWhile_prefix _)
  have htake : input.take (rustTrimEnd pre.dropLast).length =
      rustTrimEnd pre.dropLast := (List.prefix_iff_eq_take.1 hpre0).symm
  constructor
  · rw [← hnm, htake, hpre]
  · rw [← hnm, ← hrest]
    exact List.take_append_drop _ input

/-! ### Remainders are suffixes of the input -/

/-- A parser is suffix-safe when, whenever it succeeds, the returned
remainder is a suffix of the input (so the consumed part is the
complementary prefix). -/
def SuffixSafe {α : Type} (p : Parser α) : Prop :=
  ∀ input rest a, p input = some (rest, a) → rest <:+ input

theorem suffixSafe_tagP (t : List Char) : SuffixSafe (tagP t) := by
  intro input rest a h
  obtain ⟨happ, -⟩ := tagP_eq_some h
  exact ⟨t, happ.symm⟩

theorem suffixSafe_split1 (pred : Char → Bool) :
    SuffixSafe (splitAtPosition1Complete pred) := by
  intro input rest a h
  obtain ⟨-, -, hrest, -⟩ := split1_eq_some h
  exact hrest ▸ List.drop_suffix _ _

theorem suffixSafe_space0 : SuffixSafe space0 := by
  intro input rest a h
  unfold space0 at h
  injection h with h'
  injection h' with h₁ _
  exact h₁ ▸ List.drop_suffix _ _

theorem suffixSafe_tagNoCaseP (t : List Char) : SuffixSafe (tagNoCaseP t) := by
  intro input rest a h
  unfold tagNoCaseP at h
  split at h
  · injection h with h'
    injection h' with h₁ _
    exact h₁ ▸ List.drop_suffix _ _
  · cases h

theorem suffixSafe_swsdob :
    SuffixSafe string_with_spaces_delimited_by_open_brace := by
  intro input rest a h
  obtain ⟨-, happ⟩ := swsdob_eq_some h
  exact ⟨a, happ⟩

theorem suffixSafe_signP : SuffixSafe signP := by
  intro input rest a h
  unfold signP at h
  split at h
  · injection h with h'
    injection h' with h₁ _
    exact h₁ ▸ ⟨['+'], rfl⟩
  · injection h with h'
    injection h' with h₁ _
    exact h₁ ▸ ⟨['-'], rfl⟩
  · injection h with h'
    injection h' with h₁ _
    exact h₁ ▸ List.suffix_refl _

theorem suffix_tail {c : Char} {l input : Input} (h : (c :: l) <:+ input) :
    l <:+ input :=
  List.IsSuffix.trans ⟨[c], rfl⟩ h

theorem suffixSafe_multispace1 : SuffixSafe multispace1 :=
  suffixSafe_split1 _

theorem suffixSafe_space1 : SuffixSafe space1 :=
  suffixSafe_split1 _

theorem suffixSafe_palt {α : Type} {p q : Parser α} (hp : SuffixSafe p)
    (hq : SuffixSafe q) : SuffixSafe (palt p q) := by
  intro input rest a h
  unfold palt at h
  split at h
  case h_1 r heq =>
    injection h with h'
    subst h'
    exact hp _ _ _ heq
  case h_2 => exact hq _ _ _ h

theorem suffixSafe_popt {α : Type} {p : Parser α} (hp : SuffixSafe p) :
    SuffixSafe (popt p) := by
  intro input rest a h
  unfold popt at h
  split at h
  case h_1 i x heq =>
    injection h with h'
    injection h' with h₁ _
    exact h₁ ▸ hp _ _ _ heq
  case h_2 =>
    injection h with h'
    injection h' with h₁ _
    exact h₁ ▸ List.suffix_refl _

theorem suffixSafe_pmap {α β : Type} {p : Parser α} (f : α → β)
    (hp : SuffixSafe p) : SuffixSafe (pmap p f) := by
  intro input rest a h
  obtain ⟨i, x, h₁, h₂⟩ := pstep_eq_some.1 h
  injection h₂ with h'
  injection h' with h₃ _
  exact h₃ ▸ hp _ _ _ h₁

theorem suffixSafe_charP (c : Char) : SuffixSafe (charP c) := by
  intro input rest a h
  unfold charP at h
  split at h
  case h_1 x r =>
    split at h
    · injection h with h'
      injection h' with h₁ _
      exact h₁ ▸ ⟨[x], rfl⟩
    · cases h
  case h_2 => cases h

theorem suffixSafe_dotFrac : SuffixSafe dotFrac := by
  intro input rest a h
  obtain ⟨i1, x1, h1, h⟩ := pstep_eq_some.1 h
  obtain ⟨i2, x2, h2, h⟩ := pstep_eq_some.1 h
  injection h with h'
  injection h' with h₁ _
  exact h₁ ▸ (suffixSafe_popt (suffixSafe_split1 _) _ _ _ h2).trans
    (suffixSafe_charP _ _ _ _ h1)

theorem suffixSafe_mantissaP : SuffixSafe mantissaP := by
  apply suffixSafe_palt
  · intro input rest a h
    obtain ⟨i1, x1, h1, h⟩ := pstep_eq_some.1 h
    obtain ⟨i2, x2, h2, h⟩ := pstep_eq_some.1 h
    injection h with h'
    injection h' with h₁ _
    exact h₁ ▸ (suffixSafe_popt suffixSafe_dotFrac _ _ _ h2).trans
      (suffixSafe_split1 _ _ _ _ h1)
  · intro input rest a h
    obtain ⟨i1, x1, h1, h⟩ := pstep_eq_some.1 h
    obtain ⟨i2, x2, h2, h⟩ := pstep_eq_some.1 h
    injection h with h'
    injection h' with h₁ _
    exact h₁ ▸ (suffixSafe_split1 _ _ _ _ h2).trans
      (suffixSafe_charP _ _ _ _ h1)

theorem suffixSafe_exponentP : SuffixSafe exponentP := by
  intro input rest a h
  unfold exponentP at h
  split at h
  case h_1 c r =>
    split at h
    case isTrue =>
      obtain ⟨i1, x1, h1, h⟩ := pstep_eq_some.1 h
      obtain ⟨i2, x2, h2, h⟩ := pstep_eq_some.1 h
      injection h with h'
      injection h' with h₁ _
      exact h₁ ▸ ((suffixSafe_split1 _ _ _ _ h2).trans
        (suffixSafe_signP _ _ _ h1)).trans ⟨[c], rfl⟩
    case isFalse =>
      injection h with h'
      injection h' with h₁ _
      exact h₁ ▸ List.suffix_refl _
  case h_2 =>
    injection h with h'
    injection h' with h₁ _
    exact h₁ ▸ List.suffix_refl _

theorem suffixSafe_recognize_float_val : SuffixSafe recognize_float_val := by
  intro input rest a h
  obtain ⟨i1, x1, h1, h⟩ := pstep_eq_some.1 h
  obtain ⟨i2, x2, h2, h⟩ := pstep_eq_some.1 h
  obtain ⟨i3, x3, h3, h⟩ := pstep_eq_some.1 h
  injection h with h'
  injection h' with h₁ _
  exact h₁ ▸ ((suffixSafe_exponentP _ _ _ h3).trans
    (suffixSafe_mantissaP _ _ _ h2)).trans (suffixSafe_signP _ _ _ h1)

theorem suffixSafe_float : SuffixSafe float :=
  suffixSafe_palt (suffixSafe_pmap _ suffixSafe_recognize_float_val)
    (suffixSafe_palt (suffixSafe_pmap _ (suffixSafe_tagNoCaseP _))
      (suffixSafe_palt (suffixSafe_pmap _ (suffixSafe_tagNoCaseP _))
        (suffixSafe_pmap _ (suffixSafe_tagNoCaseP _))))

theorem suffixSafe_bool_value : SuffixSafe bool_value :=
  suffixSafe_palt (suffixSafe_pmap _ (suffixSafe_tagP _))
    (suffixSafe_pmap _ (suffixSafe_tagP _))

theorem sepList1MsAux_suffix {α : Type} {item : Parser α}
    (hi : SuffixSafe item) :
    ∀ (fuel : ℕ) (cur : Input) (acc : List α) (rest : Input) (out : List α),
      sepList1MsAux item fuel cur acc = some (rest, out) → rest <:+ cur := by
  intro fuel
  induction fuel with
  | zero => intro cur acc rest out h; cases h
  | succ f ih =>
    intro cur acc rest out h
    simp only [sepList1MsAux] at h
    split at h
    case h_1 =>
      injection h with h'
      injection h' with h₁ _
      exact h₁ ▸ List.suffix_refl _
    case h_2 i1 w hms =>
      split at h
      case isTrue => cases h
      case isFalse =>
        split at h
        case h_1 =>
          injection h with h'
          injection h' with h₁ _
          exact h₁ ▸ List.suffix_refl _
        case h_2 i2 o hitem =>
          exact ((ih _ _ _ _ h).trans (hi _ _ _ hitem)).trans
            (suffixSafe_multispace1 _ _ _ hms)

theorem suffixSafe_separated_list1_ms {α : Type} {item : Parser α}
    (hi : SuffixSafe item) : SuffixSafe (separated_list1_ms item) := by
  intro input rest a h
  obtain ⟨i1, x1, h1, h⟩ := pstep_eq_some.1 h
  exact (sepList1MsAux_suffix hi _ _ _ _ _ h).trans (hi _ _ _ h1)

theorem suffixSafe_block {α : Type} {item : Parser α} (hi : SuffixSafe item) :
    SuffixSafe (block item) := by
  intro input rest a h
  obtain ⟨i1, x1, h1, h⟩ := pstep_eq_some.1 h
  obtain ⟨i2, x2, h2, h⟩ := pstep_eq_some.1 h
  obtain ⟨i3, x3, h3, h⟩ := pstep_eq_some.1 h
  obtain ⟨i4, x4, h4, h⟩ := pstep_eq_some.1 h
  obtain ⟨i5, x5, h5, h⟩ := pstep_eq_some.1 h
  injection h with h'
  injection h' with h₁ _
  exact h₁ ▸ ((((suffixSafe_tagP _ _ _ _ h5).trans
    (suffixSafe_multispace1 _ _ _ h4)).trans (hi _ _ _ h3)).trans
    (suffixSafe_multispace1 _ _ _ h2)).trans (suffixSafe_tagP _ _ _ _ h1)

theorem suffixSafe_unnamed_block {α : Type} (blockTag : List Char)
    {item : Parser α} (hi : SuffixSafe item) :
    SuffixSafe (unnamed_block blockTag item) := by
  intro input rest a h
  obtain ⟨i1, x1, h1, h⟩ := pstep_eq_some.1 h
  obtain ⟨i2, x2, h2, h⟩ := pstep_eq_some.1 h
  exact ((suffixSafe_block hi _ _ _ h).trans
    (suffixSafe_multispace1 _ _ _ h2)).trans (suffixSafe_tagP _ _ _ _ h1)

theorem suffixSafe_named_block {α : Type} (blockTag : List Char)
    {item : Parser α} (hi : SuffixSafe item) :
    SuffixSafe (named_block blockTag item) := by
  intro input rest a h
  obtain ⟨i1, x1, h1, h⟩ := pstep_eq_some.1 h
  obtain ⟨i2, x2, h2, h⟩ := pstep_eq_some.1 h
  obtain ⟨i3, x3, h3, h⟩ := pstep_eq_some.1 h
  obtain ⟨i4, x4, h4, h⟩ := pstep_eq_some.1 h
  obtain ⟨i5, x5, h5, h⟩ := pstep_eq_some.1 h
  injection h with h'
  injection h' with h₁ _
  exact h₁ ▸ ((((suffixSafe_block hi _ _ _ h5).trans
    (suffixSafe_multispace1 _ _ _ h4)).trans
    (suffixSafe_swsdob _ _ _ h3)).trans
    (suffixSafe_space1 _ _ _ h2)).trans (suffixSafe_tagP _ _ _ _ h1)

theorem suffixSafe_named_block_repeated {α : Type} (blockTag : List Char)
    {item : Parser α} (hi : SuffixSafe item) :
    SuffixSafe (named_block_repeated blockTag item) :=
  suffixSafe_named_block blockTag (suffixSafe_separated_list1_ms hi)

theorem suffixSafe_module {α : Type} {item : Parser α} (hi : SuffixSafe item) :
    SuffixSafe (module item) := by
  intro input rest a h
  obtain ⟨i1, x1, h1, h⟩ := pstep_eq_some.1 h
  injection h with h'
  injection h' with h₁ _
  exact h₁ ▸ suffixSafe_named_block_repeated _ hi _ _ _ h1

theorem suffixSafe_field_value {α : Type} (fieldName sep : List Char)
    {value : Parser α} (hv : SuffixSafe value) :
    SuffixSafe (field_value fieldName sep value) := by
  intro input rest a h
  obtain ⟨i1, x1, h1, h⟩ := pstep_eq_some.1 h
  obtain ⟨i2, x2, h2, h⟩ := pstep_eq_some.1 h
  obtain ⟨i3, x3, h3, h⟩ := pstep_eq_some.1 h
  obtain ⟨i4, x4, h4, h⟩ := pstep_eq_some.1 h
  obtain ⟨i5, x5, h5, h⟩ := pstep_eq_some.1 h
  obtain ⟨i6, x6, h6, h⟩ := pstep_eq_some.1 h
  obtain ⟨i7, x7, h7, h⟩ := pstep_eq_some.1 h
  injection h with h'
  injection h' with h₁ _
  exact h₁ ▸ ((((((suffixSafe_tagP _ _ _ _ h7).trans
    (hv _ _ _ h6)).trans (suffixSafe_space0 _ _ _ h5)).trans
    (suffixSafe_tagP _ _ _ _ h4)).trans (suffixSafe_space0 _ _ _ h3)).trans
    (suffixSafe_tagP _ _ _ _ h2)).trans (suffixSafe_space0 _ _ _ h1)

theorem suffixSafe_recipe_ingredient : SuffixSafe recipe_ingredient := by
  intro input rest a h
  obtain ⟨i1, x1, h1, h⟩ := pstep_eq_some.1 h
  obtain ⟨i2, x2, h2, h⟩ := pstep_eq_some.1 h
  injection h with h'
  injection h' with h₁ _
  exact h₁ ▸ (suffixSafe_tagP _ _ _ _ h2).trans (suffixSafe_split1 _ _ _ _ h1)

theorem suffixSafe_recipe_body : SuffixSafe recipe_body := by
  intro input rest a h
  obtain ⟨i1, x1, h1, h⟩ := pstep_eq_some.1 h
  obtain ⟨i2, x2, h2, h⟩ := pstep_eq_some.1 h
  obtain ⟨i3, x3, h3, h⟩ := pstep_eq_some.1 h
  obtain ⟨i4, x4, h4, h⟩ := pstep_eq_some.1 h
  obtain ⟨i5, x5, h5, h⟩ := pstep_eq_some.1 h
  obtain ⟨i6, x6, h6, h⟩ := pstep_eq_some.1 h
  obtain ⟨i7, x7, h7, h⟩ := pstep_eq_some.1 h
  obtain ⟨i8, x8, h8, h⟩ := pstep_eq_some.1 h
  obtain ⟨i9, x9, h9, h⟩ := pstep_eq_some.1 h
  injection h with h'
  injection h' with h₁ _
  exact h₁ ▸ ((((((((suffixSafe_field_value _ _ suffixSafe_bool_value _ _ _ h9).trans
    (suffixSafe_multispace1 _ _ _ h8)).trans
    (suffixSafe_field_value _ _ (suffixSafe_split1 _) _ _ _ h7)).trans
    (suffixSafe_multispace1 _ _ _ h6)).trans
    (suffixSafe_field_value _ _ suffixSafe_float _ _ _ h5)).trans
    (suffixSafe_multispace1 _ _ _ h4)).trans
    (suffixSafe_field_value _ _ (suffixSafe_split1 _) _ _ _ h3)).trans
    (suffixSafe_multispace1 _ _ _ h2)).trans
    (suffixSafe_separated_list1_ms suffixSafe_recipe_ingredient _ _ _ h1)

theorem suffixSafe_recipe : SuffixSafe recipe := by
  intro input rest a h
  obtain ⟨i1, x1, h1, h⟩ := pstep_eq_some.1 h
  injection h with h'
  injection h' with h₁ _
  exact h₁ ▸ suffixSafe_named_block _ suffixSafe_recipe_body _ _ _ h1

/-! ### Well-formed module inputs parse to the expected ModuleBlock -/

/-- A non-empty run of nom whitespace (space, tab, CR, LF). -/
def WsRun (w : List Char) : Prop :=
  w ≠ [] ∧ ∀ c ∈ w, isNomMultispace c = true

/-- A non-empty run of spaces and tabs (what `space1` accepts). -/
def SpTabRun (w : List Char) : Prop :=
  w ≠ [] ∧ ∀ c ∈ w, isNomSpace c = true

/-- The item parser accepts exactly the text `t` (with value `v`) when
it is followed by whitespace, and `t` does not begin with whitespace.
This formalizes "an item accepted by the supplied item parser" for an
item occurring inside a whitespace-separated block body. -/
def ItemSpec {α : Type} (p : Parser α) (t : List Char) (v : α) : Prop :=
  (∃ c cs, t = c :: cs ∧ isNomMultispace c = false) ∧
  ∀ (c : Char) (rs : Input), isNomMultispace c = true →
    p (t ++ c :: rs) = some (c :: rs, v)

/-- Rendering of the tail of a block body: for each pair `(s, t)` a
whitespace separator `s` and an item text `t`, then the final
whitespace `w3` and the closing brace. -/
def glue : List (List Char × List Char) → List Char → List Char
  | [], w3 => w3 ++ ['}']
  | (s, t) :: rest, w3 => s ++ (t ++ glue rest w3)

theorem glue_head {α : Type} {p : Parser α} {w3 : List Char}
    {pairs : List (List Char × List Char)} {vs : List α} (hw3 : WsRun w3)
    (hf : List.Forall₂ (fun pr v => WsRun pr.1 ∧ ItemSpec p pr.2 v) pairs vs) :
    ∃ c rs, glue pairs w3 = c :: rs ∧ isNomMultispace c = true := by
  cases pairs with
  | nil =>
    cases hw : w3 with
    | nil => exact absurd hw hw3.1
    | cons cw cws =>
      exact ⟨cw, cws ++ ['}'], by simp [glue, hw], hw3.2 _ (by simp [hw])⟩
  | cons pr rest =>
    obtain ⟨s, t⟩ := pr
    cases hf with
    | cons hrel _ =>
      obtain ⟨⟨hs1, hs2⟩, -⟩ := hrel
      cases hs : s with
      | nil => exact absurd hs hs1
      | cons c cs =>
        exact ⟨c, cs ++ (t ++ glue rest w3), by simp [glue, hs],
          hs2 _ (by simp [hs])⟩

theorem sepAux_glue {α : Type} {p : Parser α} {w3 : List Char}
    (hw3 : WsRun w3) (hclose : p ['}'] = none) :
    ∀ (pairs : List (List Char × List Char)) (vs acc : List α) (fuel : ℕ),
      List.Forall₂ (fun pr v => WsRun pr.1 ∧ ItemSpec p pr.2 v) pairs vs →
      (glue pairs w3).length + 1 ≤ fuel →
      sepList1MsAux p fuel (glue pairs w3) acc =
        some (w3 ++ ['}'], acc ++ vs) := by
  intro pairs
  induction pairs with
  | nil =>
    intro vs acc fuel hf hfuel
    cases hf
    obtain ⟨f, rfl⟩ : ∃ f, fuel = f + 1 :=
      ⟨fuel - 1, by simp [glue] at hfuel; omega⟩
    have hms : multispace1 (glue [] w3) = some (['}'], w3) := by
      simpa [glue] using
        multispace1_append_stop w3 '}' [] hw3.1 hw3.2 (by decide)
    simp only [sepList1MsAux, hms]
    rw [if_neg, hclose]
    · simp [glue]
    · simp only [glue, List.length_append, List.length_cons, List.length_nil]
      have : w3.length ≠ 0 := by
        simpa using fun h => hw3.1 (List.length_eq_zero.1 h)
      omega
  | cons pr rest ih =>
    intro vs acc fuel hf hfuel
    obtain ⟨s, t⟩ := pr
    cases hf with
    | cons hrel hf' =>
      rename_i v vs'
      obtain ⟨hs, hit⟩ := hrel
      obtain ⟨c, cs, rfl, hc⟩ := hit.1
      obtain ⟨f, rfl⟩ : ∃ f, fuel = f + 1 := ⟨fuel - 1, by omega⟩
      have hms : multispace1 (glue ((s, c :: cs) :: rest) w3) =
          some (c :: (cs ++ glue rest w3), s) := by
        simpa [glue] using multispace1_append_stop s c
          (cs ++ glue rest w3) hs.1 hs.2 hc
      obtain ⟨c', rs', hglue, hc'⟩ := glue_head hw3 hf'
      have hitem : p (c :: (cs ++ glue rest w3)) =
          some (glue rest w3, v) := by
        have := hit.2 c' rs' hc'
        rw [hglue]
        simpa [hglue] using this
      simp only [sepList1MsAux, hms]
      rw [if_neg, hitem]
      · show sepList1MsAux p f (glue rest w3) (acc ++ [v]) =
          some (w3 ++ ['}'], acc ++ v :: vs')
        rw [ih vs' (acc ++ [v]) f hf'
          (by
            simp only [glue, List.length_append, List.length_cons] at hfuel ⊢
            have : s.length ≠ 0 := by
              simpa using fun h => hs.1 (List.length_eq_zero.1 h)
            omega)]
        simp
      · simp only [glue, List.length_append, List.length_cons]
        have : s.length ≠ 0 := by
          simpa using fun h => hs.1 (List.length_eq_zero.1 h)
        omega

theorem separated_list1_ms_glue {α : Type} {p : Parser α} {w3 t1 : List Char}
    {v1 : α} {pairs : List (List Char × List Char)} {vs : List α}
    (hw3 : WsRun w3) (hclose : p ['}'] = none) (h1 : ItemSpec p t1 v1)
    (hf : List.Forall₂ (fun pr v => WsRun pr.1 ∧ ItemSpec p pr.2 v) pairs vs) :
    separated_list1_ms p (t1 ++ glue pairs w3) =
      some (w3 ++ ['}'], v1 :: vs) := by
  obtain ⟨c', rs', hglue, hc'⟩ := glue_head hw3 hf
  have hfirst : p (t1 ++ glue pairs w3) = some (glue pairs w3, v1) := by
    rw [hglue]
    exact h1.2 c' rs' hc'
  unfold separated_list1_ms
  rw [pstep_some _ hfirst]
  have := sepAux_glue hw3 hclose pairs vs [v1]
    ((t1 ++ glue pairs w3).length + 1) hf
    (by simp only [List.length_append]; omega)
  rw [this]
  simp

theorem block_glue {α : Type} {p : Parser α} {w2 w3 t1 : List Char}
    {v1 : α} {pairs : List (List Char × List Char)} {vs : List α}
    (hw2 : WsRun w2) (hw3 : WsRun w3) (hclose : p ['}'] = none)
    (h1 : ItemSpec p t1 v1)
    (hf : List.Forall₂ (fun pr v => WsRun pr.1 ∧ ItemSpec p pr.2 v) pairs vs) :
    block (separated_list1_ms p) ('{' :: (w2 ++ (t1 ++ glue pairs w3))) =
      some ([], v1 :: vs) := by
  obtain ⟨c, cs, rfl, hc⟩ := h1.1
  unfold block
  have htag1 : tagP ['{'] ('{' :: (w2 ++ (c :: cs ++ glue pairs w3))) =
      some (w2 ++ (c :: cs ++ glue pairs w3), ['{']) :=
    tagP_append ['{'] _
  rw [pstep_some _ htag1]
  have hms : multispace1 (w2 ++ (c :: cs ++ glue pairs w3)) =
      some (c :: cs ++ glue pairs w3, w2) :=
    multispace1_append_stop w2 c (cs ++ glue pairs w3) hw2.1 hw2.2 hc
  rw [pstep_some _ hms]
  have hsep : separated_list1_ms p (c :: cs ++ glue pairs w3) =
      some (w3 ++ ['}'], v1 :: vs) :=
    separated_list1_ms_glue hw3 hclose h1 hf
  rw [pstep_some _ hsep]
  have hms2 : multispace1 (w3 ++ ['}']) = some (['}'], w3) :=
    multispace1_append_stop w3 '}' [] hw3.1 hw3.2 (by decide)
  rw [pstep_some _ hms2]
  have htag2 : tagP ['}'] ['}'] = some ([], ['}']) := by decide
  rw [pstep_some _ htag2]

theorem swsdob_exact' {N w : List Char} (rest : List Char) (hN : N ≠ [])
    (hNbrace : '{' ∉ N)
    (hNlast : ∀ c, N.getLast? = some c → isRustWhitespace c = false)
    (hw : w ≠ []) (hwall : ∀ c ∈ w, isRustWhitespace c = true) :
    string_with_spaces_delimited_by_open_brace (N ++ (w ++ '{' :: rest)) =
      some (w ++ '{' :: rest, N) := by
  rw [← List.append_assoc]
  exact swsdob_exact hN hNbrace hNlast hw hwall

theorem named_block_repeated_glue {α : Type} {p : Parser α}
    {Name w0 w1 w2 w3 t1 : List Char} {v1 : α}
    {pairs : List (List Char × List Char)} {vs : List α} (tg : List Char)
    (hw0 : SpTabRun w0) (hw1 : WsRun w1) (hw2 : WsRun w2) (hw3 : WsRun w3)
    (hN : Name ≠ []) (hNb : '{' ∉ Name)
    (hNh : ∀ c cs, Name = c :: cs → isNomSpace c = false)
    (hNl : ∀ c, Name.getLast? = some c → isRustWhitespace c = false)
    (h1 : ItemSpec p t1 v1)
    (hf : List.Forall₂ (fun pr v => WsRun pr.1 ∧ ItemSpec p pr.2 v) pairs vs)
    (hclose : p ['}'] = none) :
    named_block_repeated tg p
        (tg ++ (w0 ++ (Name ++ (w1 ++ '{' :: (w2 ++ (t1 ++ glue pairs w3))))))
      = some ([], (Name, v1 :: vs)) := by
  obtain ⟨n0, ns, hname⟩ : ∃ n0 ns, Name = n0 :: ns := by
    cases Name with
    | nil => exact absurd rfl hN
    | cons a b => exact ⟨a, b, rfl⟩
  unfold named_block_repeated named_block
  rw [pstep_some _ (tagP_append tg _)]
  have hsp : space1 (w0 ++ (Name ++ (w1 ++ '{' :: (w2 ++ (t1 ++ glue pairs w3)))))
      = some (Name ++ (w1 ++ '{' :: (w2 ++ (t1 ++ glue pairs w3))), w0) := by
    rw [hname]
    simpa using space1_append_stop w0 n0
      (ns ++ (w1 ++ '{' :: (w2 ++ (t1 ++ glue pairs w3)))) hw0.1 hw0.2
      (hNh n0 ns hname)
  rw [pstep_some _ hsp]
  have hsw := swsdob_exact' (w2 ++ (t1 ++ glue pairs w3)) hN hNb hNl
    hw1.1 (fun c hc => nomMultispace_isRustWhitespace (hw1.2 c hc))
  rw [pstep_some _ hsw]
  have hms : multispace1 (w1 ++ '{' :: (w2 ++ (t1 ++ glue pairs w3))) =
      some ('{' :: (w2 ++ (t1 ++ glue pairs w3)), w1) :=
    multispace1_append_stop w1 '{' _ hw1.1 hw1.2 (by decide)
  rw [pstep_some _ hms]
  rw [pstep_some _ (block_glue hw2 hw3 hclose h1 hf)]

/-! ### The claims -/

/-- C1: for every well-formed input of the shape
`module <Name> { i1 i2 ... in }` — arbitrary whitespace runs in every
separator position, a non-empty brace-free name that does not start
with a space/tab nor end in whitespace, and n ≥ 1 item texts each of
which the supplied item parser accepts exactly (`ItemSpec`), the
`module item` parser succeeds and returns a `ModuleBlock` whose name is
`<Name>` and whose definitions are exactly the item values in source
order. -/
theorem module_parses_well_formed_input {α : Type} (p : Parser α)
    (Name w0 w1 w2 w3 t1 : List Char) (v1 : α)
    (pairs : List (List Char × List Char)) (vs : List α)
    (hw0 : SpTabRun w0) (hw1 : WsRun w1) (hw2 : WsRun w2) (hw3 : WsRun w3)
    (hN : Name ≠ []) (hNb : '{' ∉ Name)
    (hNh : ∀ c cs, Name = c :: cs → isNomSpace c = false)
    (hNl : ∀ c, Name.getLast? = some c → isRustWhitespace c = false)
    (h1 : ItemSpec p t1 v1)
    (hf : List.Forall₂ (fun pr v => WsRun pr.1 ∧ ItemSpec p pr.2 v) pairs vs)
    (hclose : p ['}'] = none) :
    module p ("module".toList ++ (w0 ++ (Name ++ (w1 ++ '{' ::
        (w2 ++ (t1 ++ glue pairs w3)))))) =
      some ([], ModuleBlock.mk Name (v1 :: vs)) := by
  unfold module
  rw [pstep_some _ (named_block_repeated_glue ("module".toList)
    hw0 hw1 hw2 hw3 hN hNb hNh hNl h1 hf hclose)]

/-- Witness for C1 at `module Base { foo foo }` with the item parser
`tag("foo")`. -/
theorem module_parses_well_formed_input_witness :
    module (tagP ("foo".toList)) ("module Base { foo foo }".toList) =
      some ([], ModuleBlock.mk ("Base".toList)
        ["foo".toList, "foo".toList]) := by
  have hitem : ItemSpec (tagP ("foo".toList)) ("foo".toList) ("foo".toList) :=
    ⟨⟨'f', "oo".toList, rfl, by decide⟩, fun c rs _ => tagP_append _ _⟩
  have e : "module Base { foo foo }".toList =
      "module".toList ++ ([' '] ++ ("Base".toList ++ ([' '] ++ '{' ::
        ([' '] ++ ("foo".toList ++ glue [([' '], "foo".toList)] [' ']))))) := by
    decide
  rw [e]
  exact module_parses_well_formed_input (tagP ("foo".toList))
    ("Base".toList) [' '] [' '] [' '] [' '] ("foo".toList) ("foo".toList)
    [([' '], "foo".toList)] ["foo".toList]
    ⟨by decide, by decide⟩ ⟨by decide, by decide⟩ ⟨by decide, by decide⟩
    ⟨by decide, by decide⟩ (by decide) (by decide)
    (by
      intro c cs h
      rw [show "Base".toList = 'B' :: "ase".toList from rfl] at h
      injection h with h1 _
      subst h1
      decide)
    (by
      intro c h
      rw [show ("Base".toList).getLast? = some 'e' from rfl] at h
      injection h with h1
      subst h1
      decide)
    hitem
    (List.Forall₂.cons ⟨⟨by decide, by decide⟩, hitem⟩ List.Forall₂.nil)
    (by decide)

/-- C9: `module item` succeeds exactly when
`named_block_repeated "module" item` succeeds, with the same remainder,
returning the `ModuleBlock` built from the `(name, items)` pair; and
`named_block_repeated tag item` behaves identically to
`named_block tag (separated_list1 multispace1 item)`.  (Failures are both
`none`; nom error payloads are not modelled.) -/
theorem module_refines_named_block_repeated {α : Type} (item : Parser α)
    (input : Input) :
    (module item input = none ↔
      named_block_repeated ("module".toList) item input = none) ∧
    (∀ rest n xs,
      named_block_repeated ("module".toList) item input = some (rest, (n, xs)) →
        module item input = some (rest, ModuleBlock.mk n xs)) ∧
    (∀ tg : List Char,
      named_block_repeated tg item input =
        named_block tg (separated_list1_ms item) input) := by
  refine ⟨?_, ?_, fun tg => rfl⟩
  · unfold module
    cases h : named_block_repeated ("module".toList) item input with
    | none => simp [pstep]
    | some p =>
      obtain ⟨rest, q⟩ := p
      simp [pstep]
  · intro rest n xs h
    unfold module
    rw [pstep_some _ h]

/-- Witness for C9: the correspondence evaluated on
`module Base { foo }` with item parser `tag("foo")`. -/
theorem module_refines_named_block_repeated_witness :
    module (tagP ("foo".toList)) ("module Base { foo }".toList) =
      some ([], ModuleBlock.mk ("Base".toList) ["foo".toList]) :=
  (module_refines_named_block_repeated (tagP ("foo".toList))
    ("module Base { foo }".toList)).2.1 [] ("Base".toList) ["foo".toList]
    (by decide)

/-- C2 counterexample: the input `"module \n\x7b x \x7d"` parses successfully
as a module whose name is the empty string — `space1` stops at the
newline, so the name run before the brace is `"\n"`, which trims to
nothing.  This refutes the claim that a successfully parsed module name
is always non-empty. -/
theorem module_empty_name_counterexample :
    module (tagP ['x']) ("module \n\x7b x \x7d".toList) =
      some ([], ModuleBlock.mk [] [['x']]) := by decide

/-- C2 amended: the name of a successfully parsed module may be empty,
but it never contains `'{'` and never ends in a whitespace character
(it is a right-trimmed prefix of the text before the first brace). -/
theorem module_name_brace_free_and_trimmed {α : Type} (item : Parser α) :
    ∀ input rest mb, module item input = some (rest, mb) →
      '{' ∉ mb.name ∧
      ∀ c, mb.name.getLast? = some c → isRustWhitespace c = false := by
  intro input rest mb h
  unfold module at h
  obtain ⟨i1, x1, h1, h⟩ := pstep_eq_some.1 h
  injection h with h'
  injection h' with _ hmb
  unfold named_block_repeated named_block at h1
  obtain ⟨j1, y1, hh1, h1⟩ := pstep_eq_some.1 h1
  obtain ⟨j2, y2, hh2, h1⟩ := pstep_eq_some.1 h1
  obtain ⟨j3, nm, hh3, h1⟩ := pstep_eq_some.1 h1
  obtain ⟨j4, y4, hh4, h1⟩ := pstep_eq_some.1 h1
  obtain ⟨j5, y5, hh5, h1⟩ := pstep_eq_some.1 h1
  injection h1 with h1'
  injection h1' with _ hx1
  obtain ⟨hnm, -⟩ := swsdob_eq_some hh3
  have hname : mb.name = nm := by rw [← hmb, ← hx1]
  constructor
  · intro hmem
    rw [hname, hnm] at hmem
    have hmem' : '{' ∈ j2.takeWhile (fun c => !(decide (c = '{'))) :=
      ((rustTrimEnd_prefix_self _).trans (List.dropLast_prefix _)).subset hmem
    have := List.mem_takeWhile_imp hmem'
    simp at this
  · intro c hc
    rw [hname, hnm] at hc
    exact rustTrimEnd_getLast?_not_ws hc

/-- Witness for the amended C2 at a successful parse. -/
theorem module_name_brace_free_and_trimmed_witness :
    '{' ∉ (ModuleBlock.mk ("Base".toList) ["foo".toList]).name ∧
    ∀ c, ((ModuleBlock.mk ("Base".toList) ["foo".toList]).name).getLast? =
        some c → isRustWhitespace c = false :=
  module_name_brace_free_and_trimmed (tagP ("foo".toList))
    ("module Base { foo }".toList) []
    (ModuleBlock.mk ("Base".toList) ["foo".toList]) (by decide)

/-- C3 counterexample: on the non-empty brace-free input `"abc"` the
name extraction does not fail; it succeeds, returning the input minus
its last character as the name.  This refutes the claim that a missing
`'{'` produces an error. -/
theorem swsdob_no_brace_counterexample :
    "abc".toList ≠ [] ∧ '{' ∉ "abc".toList ∧
    string_with_spaces_delimited_by_open_brace ("abc".toList) =
      some (['c'], ['a', 'b']) := by decide

/-- C3 amended: on every non-empty input containing no `'{'`,
`string_with_spaces_delimited_by_open_brace` succeeds (after scanning
the whole input), returning the input minus its final character with
trailing whitespace trimmed as the name; it fails only on empty input
or input whose first character is `'{'`. -/
theorem swsdob_no_brace (input : Input) (hne : input ≠ [])
    (hb : '{' ∉ input) :
    string_with_spaces_delimited_by_open_brace input =
      some (input.drop (rustTrimEnd input.dropLast).length,
            rustTrimEnd input.dropLast) := by
  have hnc : non_curly_brace input = some ([], input) :=
    split1_all hne (fun x hx => decide_eq_false (fun hc => hb (hc ▸ hx)))
  unfold string_with_spaces_delimited_by_open_brace
  rw [pstep_some _ hnc]
  show some (input.drop (rustTrimEnd input.dropLast).length,
      input.take (rustTrimEnd input.dropLast).length) = _
  have hpre : rustTrimEnd input.dropLast <+: input :=
    (rustTrimEnd_prefix_self _).trans (List.dropLast_prefix _)
  rw [(List.prefix_iff_eq_take.1 hpre).symm]

/-- Witness for the amended C3 on the input `"hello world"`. -/
theorem swsdob_no_brace_witness :
    string_with_spaces_delimited_by_open_brace ("hello world".toList) =
      some (['d'], "hello worl".toList) := by
  have h := swsdob_no_brace ("hello world".toList) (by decide) (by decide)
  rw [h]
  decide

/-- C4: the recipe example from the repository's own test parses to
exactly the expected `Recipe` value (`time` is the exact value 40). -/
theorem recipe_example_parses :
    recipe (("recipe Make Mildew Cure\n\x7b\n  GardeningSprayEmpty,\n" ++
        "  Base.Milk,\n\n  Result:GardeningSprayMilk,\n  Time:40.0,\n" ++
        "  Category:Farming,\n  NeedToBeLearn:true,\n\x7d").toList) =
      some ([], Recipe.mk ("Make Mildew Cure".toList)
        [("GardeningSprayEmpty".toList), ("Base.Milk".toList)]
        ("GardeningSprayMilk".toList) (F32.finite 40)
        ("Farming".toList) true) := by decide

/-! ### Mandatory whitespace inside braces (C7) -/

theorem suffix_append_cases {l a b : List Char} (h : l <:+ a ++ b) :
    l <:+ b ∨ ∃ x, x <:+ a ∧ x ≠ [] ∧ l = x ++ b := by
  induction a with
  | nil => exact Or.inl (by simpa using h)
  | cons c a' ih =>
    rw [List.cons_append] at h
    rcases List.suffix_cons_iff.1 h with rfl | h
    · exact Or.inr ⟨c :: a', List.suffix_refl _, by simp, by simp⟩
    · rcases ih h with h | ⟨x, hx, hne, rfl⟩
      · exact Or.inl h
      · exact Or.inr ⟨x, hx.trans ⟨[c], rfl⟩, hne, rfl⟩

theorem block_nil {α : Type} (item : Parser α) : block item [] = none := by
  unfold block
  exact pstep_none _ tagP_nil_input

theorem block_head_ne {α : Type} (item : Parser α) {c : Char}
    (l : List Char) (hc : c ≠ '{') : block item (c :: l) = none := by
  unfold block
  exact pstep_none _ (tagP_cons_ne (fun h => hc h.symm))

theorem block_brace_close {α : Type} (item : Parser α) (s : List Char) :
    block item ('{' :: '}' :: s) = none := by
  unfold block
  have htag : tagP ['{'] ('{' :: '}' :: s) = some ('}' :: s, ['{']) :=
    tagP_append ['{'] ('}' :: s)
  rw [pstep_some _ htag]
  exact pstep_none _ (multispace1_head_not s (by decide))

theorem block_none_on_suffix {α : Type} (item : Parser α)
    {name l : List Char} (hb : '{' ∉ name)
    (hs : l <:+ name ++ [' ', '{', '}']) : block item l = none := by
  rcases suffix_append_cases hs with h | ⟨x, hx, hne, rfl⟩
  · rcases List.suffix_cons_iff.1 h with rfl | h
    · exact block_head_ne item _ (by decide)
    · rcases List.suffix_cons_iff.1 h with rfl | h
      · exact block_brace_close item []
      · rcases List.suffix_cons_iff.1 h with rfl | h
        · exact block_head_ne item _ (by decide)
        · rw [List.suffix_nil.1 h]
          exact block_nil item
  · cases x with
    | nil => exact absurd rfl hne
    | cons c x' =>
      refine block_head_ne item _ (fun hc => hb ?_)
      subst hc
      exact hx.subset (by simp)

theorem split1_rest_suffix_of_tail {pred : Char → Bool} {c : Char}
    {l rest v : Input}
    (h : splitAtPosition1Complete pred (c :: l) = some (rest, v)) :
    rest <:+ l := by
  obtain ⟨-, hne, hrest, -⟩ := split1_eq_some h
  cases hv : v.length with
  | zero => exact absurd (List.length_eq_zero.1 hv) hne
  | succ n =>
    rw [hrest, hv]
    exact List.drop_suffix n l

/-- C7: the brace-delimited body requires whitespace on both sides of
its content: `block` fails whenever a non-whitespace character (such as
`'}'` in `{}`, or the start of `{item}`) follows the opening brace, and
for every tag, every brace-free name and every item parser the input
`tag name {}` fails under `named_block`, `named_block_repeated` and
`unnamed_block`.  (A "name" here may not contain `'{'`: the grammar's
names never do, since name extraction stops at the first brace.) -/
theorem empty_block_body_fails :
    (∀ (α : Type) (item : Parser α) (c : Char) (s : List Char),
      isNomMultispace c = false → block item ('{' :: c :: s) = none) ∧
    (∀ (α : Type) (tg name : List Char) (item : Parser α), '{' ∉ name →
      named_block tg item (tg ++ ' ' :: (name ++ [' ', '{', '}'])) = none) ∧
    (∀ (α : Type) (tg name : List Char) (item : Parser α), '{' ∉ name →
      named_block_repeated tg item
        (tg ++ ' ' :: (name ++ [' ', '{', '}'])) = none) ∧
    (∀ (α : Type) (tg name : List Char) (item : Parser α), '{' ∉ name →
      unnamed_block tg item (tg ++ ' ' :: (name ++ [' ', '{', '}'])) = none) := by
  have hnamed : ∀ (α : Type) (tg name : List Char) (item : Parser α),
      '{' ∉ name →
      named_block tg item (tg ++ ' ' :: (name ++ [' ', '{', '}'])) = none := by
    intro α tg name item hb
    unfold named_block
    rw [pstep_some _ (tagP_append tg (' ' :: (name ++ [' ', '{', '}'])))]
    cases h2 : space1 (' ' :: (name ++ [' ', '{', '}'])) with
    | none => exact pstep_none _ rfl
    | some p2 =>
      obtain ⟨i2, x2⟩ := p2
      rw [pstep_some _ rfl]
      have hi2 : i2 <:+ name ++ [' ', '{', '}'] :=
        split1_rest_suffix_of_tail h2
      cases h3 : string_with_spaces_delimited_by_open_brace i2 with
      | none => exact pstep_none _ rfl
      | some p3 =>
        obtain ⟨i3, x3⟩ := p3
        rw [pstep_some _ rfl]
        have hi3 : i3 <:+ name ++ [' ', '{', '}'] :=
          (suffixSafe_swsdob _ _ _ h3).trans hi2
        cases h4 : multispace1 i3 with
        | none => exact pstep_none _ rfl
        | some p4 =>
          obtain ⟨i4, x4⟩ := p4
          rw [pstep_some _ rfl]
          have hi4 : i4 <:+ name ++ [' ', '{', '}'] :=
            (suffixSafe_multispace1 _ _ _ h4).trans hi3
          exact pstep_none _ (block_none_on_suffix item hb hi4)
  refine ⟨?_, hnamed, ?_, ?_⟩
  · intro α item c s hc
    unfold block
    have htag : tagP ['{'] ('{' :: c :: s) = some (c :: s, ['{']) :=
      tagP_append ['{'] (c :: s)
    rw [pstep_some _ htag]
    exact pstep_none _ (multispace1_head_not s hc)
  · intro α tg name item hb
    exact hnamed (List α) tg name (separated_list1_ms item) hb
  · intro α tg name item hb
    unfold unnamed_block
    rw [pstep_some _ (tagP_append tg (' ' :: (name ++ [' ', '{', '}'])))]
    cases h2 : multispace1 (' ' :: (name ++ [' ', '{', '}'])) with
    | none => exact pstep_none _ rfl
    | some p2 =>
      obtain ⟨i2, x2⟩ := p2
      rw [pstep_some _ rfl]
      exact block_none_on_suffix item hb (split1_rest_suffix_of_tail h2)

/-- Witness for C7: `item Foo {}` fails to parse as a named block, and
`{}` fails as a bare block body. -/
theorem empty_block_body_fails_witness :
    named_block ("item".toList) (tagP ['x']) ("item Foo {}".toList) = none ∧
    block (tagP ['x']) ("{}".toList) = none := by
  constructor
  · have e : "item Foo {}".toList =
        "item".toList ++ ' ' :: ("Foo".toList ++ [' ', '{', '}']) := by decide
    rw [e]
    exact empty_block_body_fails.2.1 _ ("item".toList) ("Foo".toList)
      (tagP ['x']) (by decide)
  · have e : "{}".toList = '{' :: '}' :: [] := by decide
    rw [e]
    exact empty_block_body_fails.1 _ (tagP ['x']) '}' [] (by decide)

/-! ### Recipe field order (C5) -/

/-- The four typed fields of a recipe body. -/
inductive RField : Type where
  | result
  | time
  | category
  | need
deriving DecidableEq

/-- Source text of one recipe field line (representative values from the
repository's own test). -/
def renderRField : RField → String
  | .result => "Result:GardeningSprayMilk,"
  | .time => "Time:40.0,"
  | .category => "Category:Farming,"
  | .need => "NeedToBeLearn:true,"

/-- A full recipe input whose field lines appear in the given order. -/
def mkRecipeText (ord : List RField) : List Char :=
  ("recipe Make Mildew Cure\n\x7b\n  GardeningSprayEmpty,\n  Base.Milk,\n\n" ++
   String.join (ord.map (fun f => "  " ++ renderRField f ++ "\n")) ++
   "\x7d").toList

/-- The order the grammar demands: Result, Time, Category, NeedToBeLearn. -/
def canonicalOrder : List RField := [.result, .time, .category, .need]

example : (recipe (mkRecipeText canonicalOrder)).isSome = true := by decide

/-- The literal field name the grammar expects for each field
(`src/recipe.rs` lines 85, 88, 91, 94). -/
def fieldName : RField → List Char
  | .result => "Result".toList
  | .time => "Time".toList
  | .category => "Category".toList
  | .need => "NeedToBeLearn".toList

/-- First character of each field name.  The four are pairwise distinct,
which is what makes an out-of-place field line fail the `tag` of the
expected field name at its very first character. -/
def headChar : RField → Char
  | .result => 'R'
  | .time => 'T'
  | .category => 'C'
  | .need => 'N'

/-- The value text used for each field, drawn from the four given value
texts. -/
def fieldValText (rv tv cv nv : List Char) : RField → List Char
  | .result => rv
  | .time => tv
  | .category => cv
  | .need => nv

/-- Rendering of the field-line region of a recipe body: for each pair
`(f, u)` the line `<fieldName f>:<value f>,` followed by the whitespace
run `u`, and the closing brace after the last pair. -/
def fieldArea (rv tv cv nv : List Char) : List (RField × List Char) → List Char
  | [] => ['}']
  | (f, u) :: rest =>
    fieldName f ++ ':' :: (fieldValText rv tv cv nv f ++ ',' ::
      (u ++ fieldArea rv tv cv nv rest))

/-- Rendering of the tail of a separated list with an arbitrary
terminator: for each pair `(s, t)` a whitespace separator `s` and an item
text `t`, then the terminating text. -/
def glueT : List (List Char × List Char) → List Char → List Char
  | [], tail => tail
  | (s, t) :: rest, tail => s ++ (t ++ glueT rest tail)

theorem headChar_not_multispace (f : RField) :
    isNomMultispace (headChar f) = false := by
  cases f <;> decide

theorem headChar_not_space (f : RField) : isNomSpace (headChar f) = false := by
  cases f <;> decide

theorem headChar_ne_result {f : RField} (h : f ≠ RField.result) :
    'R' ≠ headChar f := by
  cases f <;> first | exact absurd rfl h | decide

theorem headChar_ne_time {f : RField} (h : f ≠ RField.time) :
    'T' ≠ headChar f := by
  cases f <;> first | exact absurd rfl h | decide

theorem headChar_ne_category {f : RField} (h : f ≠ RField.category) :
    'C' ≠ headChar f := by
  cases f <;> first | exact absurd rfl h | decide

theorem fieldArea_head (rv tv cv nv : List Char) (f : RField) (u : List Char)
    (restp : List (RField × List Char)) :
    ∃ T, fieldArea rv tv cv nv ((f, u) :: restp) = headChar f :: T := by
  cases f <;> exact ⟨_, rfl⟩

theorem glueT_head {α : Type} {p : Parser α} {wsA A : List Char}
    {pairs : List (List Char × List Char)} {vs : List α} (hwsA : WsRun wsA)
    (hf : List.Forall₂ (fun pr v => WsRun pr.1 ∧ ItemSpec p pr.2 v) pairs vs) :
    ∃ c rs, glueT pairs (wsA ++ A) = c :: rs ∧ isNomMultispace c = true := by
  cases pairs with
  | nil =>
    cases hw : wsA with
    | nil => exact absurd hw hwsA.1
    | cons cw cws =>
      exact ⟨cw, cws ++ A, by simp [glueT, hw], hwsA.2 _ (by simp [hw])⟩
  | cons pr rest =>
    obtain ⟨s, t⟩ := pr
    cases hf with
    | cons hrel _ =>
      obtain ⟨⟨hs1, hs2⟩, -⟩ := hrel
      cases hs : s with
      | nil => exact absurd hs hs1
      | cons c cs =>
        exact ⟨c, cs ++ (t ++ glueT rest (wsA ++ A)), by simp [glueT, hs],
          hs2 _ (by simp [hs])⟩

theorem sepAux_glueT {α : Type} {p : Parser α} {wsA : List Char} {cA : Char}
    {TA : List Char} (hwsA : WsRun wsA) (hcA : isNomMultispace cA = false)
    (hstop : p (cA :: TA) = none) :
    ∀ (pairs : List (List Char × List Char)) (vs acc : List α) (fuel : ℕ),
      List.Forall₂ (fun pr v => WsRun pr.1 ∧ ItemSpec p pr.2 v) pairs vs →
      (glueT pairs (wsA ++ cA :: TA)).length + 1 ≤ fuel →
      sepList1MsAux p fuel (glueT pairs (wsA ++ cA :: TA)) acc =
        some (wsA ++ cA :: TA, acc ++ vs) := by
  intro pairs
  induction pairs with
  | nil =>
    intro vs acc fuel hf hfuel
    cases hf
    obtain ⟨f, rfl⟩ : ∃ f, fuel = f + 1 := ⟨fuel - 1, by omega⟩
    have hms : multispace1 (glueT [] (wsA ++ cA :: TA)) =
        some (cA :: TA, wsA) := by
      simpa [glueT] using multispace1_append_stop wsA cA TA hwsA.1 hwsA.2 hcA
    simp only [sepList1MsAux, hms]
    rw [if_neg, hstop]
    · simp [glueT]
    · simp only [glueT, List.length_append, List.length_cons]
      have : wsA.length ≠ 0 := by
        simpa using fun h => hwsA.1 (List.length_eq_zero.1 h)
      omega
  | cons pr rest ih =>
    intro vs acc fuel hf hfuel
    obtain ⟨s, t⟩ := pr
    cases hf with
    | cons hrel hf' =>
      rename_i v vs'
      obtain ⟨hs, hit⟩ := hrel
      obtain ⟨c, cs, rfl, hc⟩ := hit.1
      obtain ⟨f, rfl⟩ : ∃ f, fuel = f + 1 := ⟨fuel - 1, by omega⟩
      have hms : multispace1 (glueT ((s, c :: cs) :: rest) (wsA ++ cA :: TA)) =
          some (c :: (cs ++ glueT rest (wsA ++ cA :: TA)), s) := by
        simpa [glueT] using multispace1_append_stop s c
          (cs ++ glueT rest (wsA ++ cA :: TA)) hs.1 hs.2 hc
      obtain ⟨c', rs', hglue, hc'⟩ := glueT_head hwsA hf'
      have hitem : p (c :: (cs ++ glueT rest (wsA ++ cA :: TA))) =
          some (glueT rest (wsA ++ cA :: TA), v) := by
        have := hit.2 c' rs' hc'
        rw [hglue]
        simpa [hglue] using this
      simp only [sepList1MsAux, hms]
      rw [if_neg, hitem]
      · show sepList1MsAux p f (glueT rest (wsA ++ cA :: TA)) (acc ++ [v]) =
          some (wsA ++ cA :: TA, acc ++ v :: vs')
        rw [ih vs' (acc ++ [v]) f hf'
          (by
            simp only [glueT, List.length_append, List.length_cons] at hfuel ⊢
            have : s.length ≠ 0 := by
              simpa using fun h => hs.1 (List.length_eq_zero.1 h)
            omega)]
        simp
      · simp only [glueT, List.length_append, List.length_cons]
        have : s.length ≠ 0 := by
          simpa using fun h => hs.1 (List.length_eq_zero.1 h)
        omega

theorem separated_list1_ms_glueT {α : Type} {p : Parser α}
    {wsA t1 : List Char} {cA : Char} {TA : List Char} {v1 : α}
    {pairs : List (List Char × List Char)} {vs : List α}
    (hwsA : WsRun wsA) (hcA : isNomMultispace cA = false)
    (hstop : p (cA :: TA) = none) (h1 : ItemSpec p t1 v1)
    (hf : List.Forall₂ (fun pr v => WsRun pr.1 ∧ ItemSpec p pr.2 v) pairs vs) :
    separated_list1_ms p (t1 ++ glueT pairs (wsA ++ cA :: TA)) =
      some (wsA ++ cA :: TA, v1 :: vs) := by
  obtain ⟨c', rs', hglue, hc'⟩ := glueT_head hwsA hf
  have hfirst : p (t1 ++ glueT pairs (wsA ++ cA :: TA)) =
      some (glueT pairs (wsA ++ cA :: TA), v1) := by
    rw [hglue]
    exact h1.2 c' rs' hc'
  unfold separated_list1_ms
  rw [pstep_some _ hfirst]
  have := sepAux_glueT hwsA hcA hstop pairs vs [v1]
    ((t1 ++ glueT pairs (wsA ++ cA :: TA)).length + 1) hf
    (by simp only [List.length_append]; omega)
  rw [this]
  simp

theorem idchar_not_multispace {c : Char}
    (h : c.isAlphanum = true ∨ c = '.') : isNomMultispace c = false := by
  rcases h with h | rfl
  · cases hms : isNomMultispace c
    · rfl
    · simp only [isNomMultispace, Bool.or_eq_true, decide_eq_true_eq] at hms
      rcases hms with ((rfl | rfl) | rfl) | rfl <;> exact absurd h (by decide)
  · decide

theorem alnum_not_space {c : Char} (h : c.isAlphanum = true) :
    isNomSpace c = false := by
  cases hs : isNomSpace c
  · rfl
  · simp only [isNomSpace, Bool.or_eq_true, decide_eq_true_eq] at hs
    rcases hs with rfl | rfl <;> exact absurd h (by decide)

/-- A non-empty run of identifier characters followed by a comma is an
ingredient item in the sense of `ItemSpec`: `recipe_ingredient` consumes it
exactly whenever whitespace follows. -/
theorem ingredient_item_spec (id : List Char) (hne : id ≠ [])
    (hall : ∀ c ∈ id, c.isAlphanum = true ∨ c = '.') :
    ItemSpec recipe_ingredient (id ++ [',']) id := by
  obtain ⟨c0, cs, rfl⟩ : ∃ c0 cs, id = c0 :: cs := by
    cases id with
    | nil => exact absurd rfl hne
    | cons a b => exact ⟨a, b, rfl⟩
  refine ⟨⟨c0, cs ++ [','], rfl,
    idchar_not_multispace (hall c0 (by simp))⟩, ?_⟩
  intro c rs _
  have hident : identifier1 ((c0 :: cs) ++ ',' :: c :: rs) =
      some (',' :: c :: rs, c0 :: cs) := by
    refine split1_append_stop (c :: rs) (by simp) ?_ (by decide)
    intro x hx
    rcases hall x hx with h | rfl
    · simp [h]
    · decide
  have e : ((c0 :: cs) ++ [',']) ++ c :: rs = (c0 :: cs) ++ ',' :: c :: rs := by
    simp
  rw [e]
  unfold recipe_ingredient
  rw [pstep_some _ hident]
  have htag : tagP [','] (',' :: c :: rs) = some (c :: rs, [',']) :=
    tagP_append [','] (c :: rs)
  rw [pstep_some _ htag]

/-- `recipe_ingredient` rejects a field line: `identifier1` consumes the
field name and then `tag(",")` fails on the `':'`. -/
theorem recipe_ingredient_field_line (f : RField) (Z : Input) :
    recipe_ingredient (fieldName f ++ ':' :: Z) = none := by
  have hident : identifier1 (fieldName f ++ ':' :: Z) =
      some (':' :: Z, fieldName f) := by
    cases f <;> exact split1_append_stop Z (by decide) (by decide) (by decide)
  unfold recipe_ingredient
  rw [pstep_some _ hident]
  exact pstep_none _ (tagP_cons_ne (by decide))

theorem space0_cons_not_space {c : Char} (l : Input)
    (hc : isNomSpace c = false) : space0 (c :: l) = some (c :: l, []) := by
  unfold space0
  rw [takeWhile_cons_false _ hc]
  rfl

/-- A `field_value` line parses exactly: with the expected field name at
the head, the separator `':'`, a value text accepted exactly by the value
parser, and the trailing comma, the remainder is whatever follows the
comma. -/
theorem field_value_line {α : Type} {v rest : Input} {pv : Parser α}
    {out : α} (cn : Char) (n' : List Char) (hcn : isNomSpace cn = false)
    (hv : ∃ cv cs, v = cv :: cs ∧ isNomSpace cv = false)
    (hout : pv (v ++ ',' :: rest) = some (',' :: rest, out)) :
    field_value (cn :: n') [':'] pv
      ((cn :: n') ++ ':' :: (v ++ ',' :: rest)) = some (rest, out) := by
  obtain ⟨cv, cs, rfl, hcv⟩ := hv
  unfold field_value
  have h0 : space0 ((cn :: n') ++ ':' :: ((cv :: cs) ++ ',' :: rest)) =
      some ((cn :: n') ++ ':' :: ((cv :: cs) ++ ',' :: rest), []) :=
    space0_cons_not_space _ hcn
  rw [pstep_some _ h0]
  rw [pstep_some _ (tagP_append (cn :: n')
    (':' :: ((cv :: cs) ++ ',' :: rest)))]
  have h1 : space0 (':' :: ((cv :: cs) ++ ',' :: rest)) =
      some (':' :: ((cv :: cs) ++ ',' :: rest), []) :=
    space0_cons_not_space _ (by decide)
  rw [pstep_some _ h1]
  have h2 : tagP [':'] (':' :: ((cv :: cs) ++ ',' :: rest)) =
      some ((cv :: cs) ++ ',' :: rest, [':']) :=
    tagP_append [':'] ((cv :: cs) ++ ',' :: rest)
  rw [pstep_some _ h2]
  have h3 : space0 ((cv :: cs) ++ ',' :: rest) =
      some ((cv :: cs) ++ ',' :: rest, []) :=
    space0_cons_not_space _ hcv
  rw [pstep_some _ h3]
  rw [pstep_some _ hout]
  have h4 : tagP [','] (',' :: rest) = some (rest, [',']) :=
    tagP_append [','] rest
  rw [pstep_some _ h4]

/-- A `field_value` fails outright when the input's first character (not
a space or tab) differs from the first character of the expected field
name. -/
theorem field_value_stuck {α : Type} {pv : Parser α} (cn : Char)
    (n' : List Char) {c : Char} (T : Input) (hc : isNomSpace c = false)
    (hne : cn ≠ c) : field_value (cn :: n') [':'] pv (c :: T) = none := by
  unfold field_value
  rw [pstep_some _ (space0_cons_not_space T hc)]
  exact pstep_none _ (tagP_cons_ne hne)

theorem alnum_value_fits {v : List Char} (hne : v ≠ [])
    (hall : ∀ c ∈ v, c.isAlphanum = true) (rest : Input) :
    alphanumeric1 (v ++ ',' :: rest) = some (',' :: rest, v) :=
  split1_append_stop rest hne (fun x hx => by simp [hall x hx]) (by decide)

/-- A valid `Time` field value: a text that does not start with a
space/tab and that nom's `float` accepts exactly, stopping at the
trailing comma. -/
def TimeValue (tv : List Char) : Prop :=
  (∃ c cs, tv = c :: cs ∧ isNomSpace c = false) ∧
  ∀ rest : Input, ∃ out : F32,
    float (tv ++ ',' :: rest) = some (',' :: rest, out)

theorem charP_cons_self (c : Char) (l : Input) :
    charP c (c :: l) = some (l, c) := by
  simp [charP]

theorem popt_of_some {α : Type} {p : Parser α} {i j : Input} {x : α}
    (h : p i = some (j, x)) : popt p i = some (j, some x) := by
  unfold popt
  rw [h]

theorem palt_of_first {α : Type} {p q : Parser α} {i : Input}
    {r : Input × α} (h : p i = some r) : palt p q i = some r := by
  unfold palt
  rw [h]

theorem pmap_of_some {α β : Type} {p : Parser α} {i j : Input} {x : α}
    (f : α → β) (h : p i = some (j, x)) : pmap p f i = some (j, f x) := by
  unfold pmap
  rw [pstep_some _ h]

theorem digit1_append_stop (d : List Char) (c : Char) (l : List Char)
    (hd : d ≠ []) (hall : ∀ x ∈ d, x.isDigit = true)
    (hc : c.isDigit = false) : digit1 (d ++ c :: l) = some (c :: l, d) :=
  split1_append_stop l hd (fun x hx => by simp [hall x hx]) (by simp [hc])

theorem signP_not_sign {c : Char} (l : Input) (h1 : c ≠ '+')
    (h2 : c ≠ '-') : signP (c :: l) = some (c :: l, false) := by
  unfold signP
  split
  next heq => injection heq with h h'; exact absurd h h1
  next heq => injection heq with h h'; exact absurd h h2
  next => rfl

theorem exponentP_not_e {c : Char} (l : Input) (h1 : c ≠ 'e')
    (h2 : c ≠ 'E') : exponentP (c :: l) = some (c :: l, (false, 0)) := by
  simp [exponentP, h1, h2]

theorem mantissaP_forty (rest : Input) :
    mantissaP ("40.0".toList ++ ',' :: rest) =
      some (',' :: rest, (400, 1)) := by
  have hd1 : digit1 ("40.0".toList ++ ',' :: rest) =
      some ('.' :: ('0' :: (',' :: rest)), "40".toList) :=
    digit1_append_stop ("40".toList) '.' ('0' :: (',' :: rest))
      (by decide) (by decide) (by decide)
  have hd2 : digit1 ('0' :: (',' :: rest)) =
      some (',' :: rest, "0".toList) :=
    digit1_append_stop ("0".toList) ',' rest (by decide) (by decide)
      (by decide)
  have hdot : dotFrac ('.' :: ('0' :: (',' :: rest))) =
      some (',' :: rest, "0".toList) := by
    unfold dotFrac
    rw [pstep_some _ (charP_cons_self '.' ('0' :: (',' :: rest)))]
    rw [pstep_some _ (popt_of_some hd2)]
    rfl
  unfold mantissaP
  refine palt_of_first ?_
  show pstep (digit1 ("40.0".toList ++ ',' :: rest)) _ = _
  rw [pstep_some _ hd1]
  rw [pstep_some _ (popt_of_some hdot)]
  rfl

theorem float_forty (rest : Input) :
    float ("40.0".toList ++ ',' :: rest) =
      some (',' :: rest, F32.finite (decimalVal false 400 1 false 0)) := by
  have hsign : signP ("40.0".toList ++ ',' :: rest) =
      some ("40.0".toList ++ ',' :: rest, false) :=
    signP_not_sign ('0' :: ('.' :: ('0' :: (',' :: rest)))) (by decide)
      (by decide)
  have hexp : exponentP (',' :: rest) = some (',' :: rest, (false, 0)) :=
    exponentP_not_e rest (by decide) (by decide)
  have hrec : recognize_float_val ("40.0".toList ++ ',' :: rest) =
      some (',' :: rest, decimalVal false 400 1 false 0) := by
    unfold recognize_float_val
    rw [pstep_some _ hsign]
    rw [pstep_some _ (mantissaP_forty rest)]
    rw [pstep_some _ hexp]
  unfold float
  exact palt_of_first (pmap_of_some F32.finite hrec)

theorem timeValue_forty : TimeValue ("40.0".toList) :=
  ⟨⟨'4', "0.0".toList, rfl, by decide⟩, fun rest => ⟨_, float_forty rest⟩⟩

/-- Whenever `recipe_body` rejects the block body, `recipe` rejects the
whole well-formed `recipe <Name> { ... }` input. -/
theorem recipe_none_of_body_none {Name w0 w1 w2 B : List Char} {c : Char}
    (hw0 : SpTabRun w0) (hw1 : WsRun w1) (hw2 : WsRun w2)
    (hN : Name ≠ []) (hNb : '{' ∉ Name)
    (hNh : ∀ c' cs, Name = c' :: cs → isNomSpace c' = false)
    (hNl : ∀ c', Name.getLast? = some c' → isRustWhitespace c' = false)
    (hc : isNomMultispace c = false)
    (hbody : recipe_body (c :: B) = none) :
    recipe ("recipe".toList ++
      (w0 ++ (Name ++ (w1 ++ '{' :: (w2 ++ c :: B))))) = none := by
  obtain ⟨n0, ns, hname⟩ : ∃ n0 ns, Name = n0 :: ns := by
    cases Name with
    | nil => exact absurd rfl hN
    | cons a b => exact ⟨a, b, rfl⟩
  have hblock : block recipe_body ('{' :: (w2 ++ c :: B)) = none := by
    unfold block
    have htag : tagP ['{'] ('{' :: (w2 ++ c :: B)) =
        some (w2 ++ c :: B, ['{']) := tagP_append ['{'] _
    rw [pstep_some _ htag]
    have hms : multispace1 (w2 ++ c :: B) = some (c :: B, w2) :=
      multispace1_append_stop w2 c B hw2.1 hw2.2 hc
    rw [pstep_some _ hms]
    exact pstep_none _ hbody
  have hnb : named_block ("recipe".toList) recipe_body
      ("recipe".toList ++
        (w0 ++ (Name ++ (w1 ++ '{' :: (w2 ++ c :: B))))) = none := by
    unfold named_block
    rw [pstep_some _ (tagP_append ("recipe".toList) _)]
    have hsp : space1 (w0 ++ (Name ++ (w1 ++ '{' :: (w2 ++ c :: B)))) =
        some (Name ++ (w1 ++ '{' :: (w2 ++ c :: B)), w0) := by
      rw [hname]
      simpa using space1_append_stop w0 n0
        (ns ++ (w1 ++ '{' :: (w2 ++ c :: B))) hw0.1 hw0.2 (hNh n0 ns hname)
    rw [pstep_some _ hsp]
    have hsw := swsdob_exact' (w2 ++ c :: B) hN hNb hNl
      hw1.1 (fun x hx => nomMultispace_isRustWhitespace (hw1.2 x hx))
    rw [pstep_some _ hsw]
    have hms : multispace1 (w1 ++ '{' :: (w2 ++ c :: B)) =
        some ('{' :: (w2 ++ c :: B), w1) :=
      multispace1_append_stop w1 '{' _ hw1.1 hw1.2 (by decide)
    rw [pstep_some _ hms]
    exact pstep_none _ hblock
  unfold recipe
  exact pstep_none _ hnb

/-- `recipe_body` fails when the first field line is not `Result`: the
ingredient list stops before it, the separating whitespace is consumed,
and then `tag("Result")` fails at the first character. -/
theorem recipe_body_fail_at_result {t1 : List Char} {v1 : List Char}
    {ipairs : List (List Char × List Char)} {ivals : List (List Char)}
    {wsA rv tv cv nv u : List Char} {g : RField}
    {restp : List (RField × List Char)}
    (hing1 : ItemSpec recipe_ingredient t1 v1)
    (hings : List.Forall₂
      (fun pr v => WsRun pr.1 ∧ ItemSpec recipe_ingredient pr.2 v)
      ipairs ivals)
    (hwsA : WsRun wsA) (hg : g ≠ RField.result) :
    recipe_body (t1 ++ glueT ipairs
      (wsA ++ fieldArea rv tv cv nv ((g, u) :: restp))) = none := by
  obtain ⟨TA, hTA⟩ := fieldArea_head rv tv cv nv g u restp
  have hstop : recipe_ingredient (headChar g :: TA) = none := by
    rw [← hTA]
    exact recipe_ingredient_field_line g _
  unfold recipe_body
  rw [hTA]
  rw [pstep_some _ (separated_list1_ms_glueT hwsA
    (headChar_not_multispace g) hstop hing1 hings)]
  rw [pstep_some _ (multispace1_append_stop wsA (headChar g) TA
    hwsA.1 hwsA.2 (headChar_not_multispace g))]
  have hfail : field_value ("Result".toList) [':'] alphanumeric1
      (headChar g :: TA) = none :=
    field_value_stuck 'R' ("esult".toList) TA (headChar_not_space g)
      (headChar_ne_result hg)
  exact pstep_none _ hfail

/-- `recipe_body` fails when `Result` comes first but the second field
line is not `Time`. -/
theorem recipe_body_fail_at_time {t1 : List Char} {v1 : List Char}
    {ipairs : List (List Char × List Char)} {ivals : List (List Char)}
    {wsA rv tv cv nv u0 u1 : List Char} {g : RField}
    {restp : List (RField × List Char)}
    (hing1 : ItemSpec recipe_ingredient t1 v1)
    (hings : List.Forall₂
      (fun pr v => WsRun pr.1 ∧ ItemSpec recipe_ingredient pr.2 v)
      ipairs ivals)
    (hwsA : WsRun wsA) (hu0 : WsRun u0)
    (hrv : rv ≠ [] ∧ ∀ x ∈ rv, x.isAlphanum = true)
    (hg : g ≠ RField.time) :
    recipe_body (t1 ++ glueT ipairs (wsA ++ fieldArea rv tv cv nv
      ((RField.result, u0) :: (g, u1) :: restp))) = none := by
  obtain ⟨TR, hTR⟩ :=
    fieldArea_head rv tv cv nv RField.result u0 ((g, u1) :: restp)
  obtain ⟨T1, hT1⟩ := fieldArea_head rv tv cv nv g u1 restp
  have hstop : recipe_ingredient (headChar RField.result :: TR) = none := by
    rw [← hTR]
    exact recipe_ingredient_field_line RField.result _
  have hexp : fieldArea rv tv cv nv
      ((RField.result, u0) :: (g, u1) :: restp) =
      "Result".toList ++ ':' :: (rv ++ ',' ::
        (u0 ++ fieldArea rv tv cv nv ((g, u1) :: restp))) := rfl
  obtain ⟨cr, rs, hrv_eq⟩ : ∃ cr rs, rv = cr :: rs := by
    cases rv with
    | nil => exact absurd rfl hrv.1
    | cons a b => exact ⟨a, b, rfl⟩
  have hres : field_value ("Result".toList) [':'] alphanumeric1
      ("Result".toList ++ ':' :: (rv ++ ',' ::
        (u0 ++ fieldArea rv tv cv nv ((g, u1) :: restp)))) =
      some (u0 ++ fieldArea rv tv cv nv ((g, u1) :: restp), rv) :=
    field_value_line 'R' ("esult".toList) (by decide)
      ⟨cr, rs, hrv_eq, alnum_not_space (hrv.2 cr (by simp [hrv_eq]))⟩
      (alnum_value_fits hrv.1 hrv.2 _)
  unfold recipe_body
  rw [hTR]
  rw [pstep_some _ (separated_list1_ms_glueT hwsA
    (headChar_not_multispace RField.result) hstop hing1 hings)]
  rw [pstep_some _ (multispace1_append_stop wsA (headChar RField.result) TR
    hwsA.1 hwsA.2 (headChar_not_multispace RField.result))]
  rw [← hTR, hexp]
  rw [pstep_some _ hres]
  rw [hT1]
  rw [pstep_some _ (multispace1_append_stop u0 (headChar g) T1
    hu0.1 hu0.2 (headChar_not_multispace g))]
  have hfail : field_value ("Time".toList) [':'] float
      (headChar g :: T1) = none :=
    field_value_stuck 'T' ("ime".toList) T1 (headChar_not_space g)
      (headChar_ne_time hg)
  exact pstep_none _ hfail

/-- `recipe_body` fails when `Result` and `Time` come first but the third
field line is not `Category`. -/
theorem recipe_body_fail_at_category {t1 : List Char} {v1 : List Char}
    {ipairs : List (List Char × List Char)} {ivals : List (List Char)}
    {wsA rv tv cv nv u0 u1 u2 : List Char} {g : RField}
    {restp : List (RField × List Char)}
    (hing1 : ItemSpec recipe_ingredient t1 v1)
    (hings : List.Forall₂
      (fun pr v => WsRun pr.1 ∧ ItemSpec recipe_ingredient pr.2 v)
      ipairs ivals)
    (hwsA : WsRun wsA) (hu0 : WsRun u0) (hu1 : WsRun u1)
    (hrv : rv ≠ [] ∧ ∀ x ∈ rv, x.isAlphanum = true)
    (htv : TimeValue tv)
    (hg : g ≠ RField.category) :
    recipe_body (t1 ++ glueT ipairs (wsA ++ fieldArea rv tv cv nv
      ((RField.result, u0) :: (RField.time, u1) :: (g, u2) :: restp))) =
      none := by
  obtain ⟨TR, hTR⟩ := fieldArea_head rv tv cv nv RField.result u0
    ((RField.time, u1) :: (g, u2) :: restp)
  obtain ⟨TT, hTT⟩ :=
    fieldArea_head rv tv cv nv RField.time u1 ((g, u2) :: restp)
  obtain ⟨T2, hT2⟩ := fieldArea_head rv tv cv nv g u2 restp
  have hstop : recipe_ingredient (headChar RField.result :: TR) = none := by
    rw [← hTR]
    exact recipe_ingredient_field_line RField.result _
  have hexpR : fieldArea rv tv cv nv
      ((RField.result, u0) :: (RField.time, u1) :: (g, u2) :: restp) =
      "Result".toList ++ ':' :: (rv ++ ',' :: (u0 ++ fieldArea rv tv cv nv
        ((RField.time, u1) :: (g, u2) :: restp))) := rfl
  have hexpT : fieldArea rv tv cv nv
      ((RField.time, u1) :: (g, u2) :: restp) =
      "Time".toList ++ ':' :: (tv ++ ',' ::
        (u1 ++ fieldArea rv tv cv nv ((g, u2) :: restp))) := rfl
  obtain ⟨cr, rs, hrv_eq⟩ : ∃ cr rs, rv = cr :: rs := by
    cases rv with
    | nil => exact absurd rfl hrv.1
    | cons a b => exact ⟨a, b, rfl⟩
  have hres : field_value ("Result".toList) [':'] alphanumeric1
      ("Result".toList ++ ':' :: (rv ++ ',' :: (u0 ++ fieldArea rv tv cv nv
        ((RField.time, u1) :: (g, u2) :: restp)))) =
      some (u0 ++ fieldArea rv tv cv nv
        ((RField.time, u1) :: (g, u2) :: restp), rv) :=
    field_value_line 'R' ("esult".toList) (by decide)
      ⟨cr, rs, hrv_eq, alnum_not_space (hrv.2 cr (by simp [hrv_eq]))⟩
      (alnum_value_fits hrv.1 hrv.2 _)
  obtain ⟨outT, houtT⟩ :=
    htv.2 (u1 ++ fieldArea rv tv cv nv ((g, u2) :: restp))
  have htime : field_value ("Time".toList) [':'] float
      ("Time".toList ++ ':' :: (tv ++ ',' ::
        (u1 ++ fieldArea rv tv cv nv ((g, u2) :: restp)))) =
      some (u1 ++ fieldArea rv tv cv nv ((g, u2) :: restp), outT) :=
    field_value_line 'T' ("ime".toList) (by decide) htv.1 houtT
  unfold recipe_body
  rw [hTR]
  rw [pstep_some _ (separated_list1_ms_glueT hwsA
    (headChar_not_multispace RField.result) hstop hing1 hings)]
  rw [pstep_some _ (multispace1_append_stop wsA (headChar RField.result) TR
    hwsA.1 hwsA.2 (headChar_not_multispace RField.result))]
  rw [← hTR, hexpR]
  rw [pstep_some _ hres]
  rw [hTT]
  rw [pstep_some _ (multispace1_append_stop u0 (headChar RField.time) TT
    hu0.1 hu0.2 (headChar_not_multispace RField.time))]
  rw [← hTT, hexpT]
  rw [pstep_some _ htime]
  rw [hT2]
  rw [pstep_some _ (multispace1_append_stop u1 (headChar g) T2
    hu1.1 hu1.2 (headChar_not_multispace g))]
  have hfail : field_value ("Category".toList) [':'] alphanumeric1
      (headChar g :: T2) = none :=
    field_value_stuck 'C' ("ategory".toList) T2 (headChar_not_space g)
      (headChar_ne_category hg)
  exact pstep_none _ hfail

/-- `recipe_body` fails when only `Result`, `Time`, `Category` are
present (the `NeedToBeLearn` field is omitted): after the third field the
closing brace is reached and `tag("NeedToBeLearn")` fails on `'}'`. -/
theorem recipe_body_fail_at_need {t1 : List Char} {v1 : List Char}
    {ipairs : List (List Char × List Char)} {ivals : List (List Char)}
    {wsA rv tv cv nv u0 u1 u2 : List Char}
    (hing1 : ItemSpec recipe_ingredient t1 v1)
    (hings : List.Forall₂
      (fun pr v => WsRun pr.1 ∧ ItemSpec recipe_ingredient pr.2 v)
      ipairs ivals)
    (hwsA : WsRun wsA) (hu0 : WsRun u0) (hu1 : WsRun u1) (hu2 : WsRun u2)
    (hrv : rv ≠ [] ∧ ∀ x ∈ rv, x.isAlphanum = true)
    (htv : TimeValue tv)
    (hcv : cv ≠ [] ∧ ∀ x ∈ cv, x.isAlphanum = true) :
    recipe_body (t1 ++ glueT ipairs (wsA ++ fieldArea rv tv cv nv
      [(RField.result, u0), (RField.time, u1), (RField.category, u2)])) =
      none := by
  obtain ⟨TR, hTR⟩ := fieldArea_head rv tv cv nv RField.result u0
    [(RField.time, u1), (RField.category, u2)]
  obtain ⟨TT, hTT⟩ :=
    fieldArea_head rv tv cv nv RField.time u1 [(RField.category, u2)]
  obtain ⟨TC, hTC⟩ := fieldArea_head rv tv cv nv RField.category u2 []
  have hstop : recipe_ingredient (headChar RField.result :: TR) = none := by
    rw [← hTR]
    exact recipe_ingredient_field_line RField.result _
  have hexpR : fieldArea rv tv cv nv
      [(RField.result, u0), (RField.time, u1), (RField.category, u2)] =
      "Result".toList ++ ':' :: (rv ++ ',' :: (u0 ++ fieldArea rv tv cv nv
        [(RField.time, u1), (RField.category, u2)])) := rfl
  have hexpT : fieldArea rv tv cv nv
      [(RField.time, u1), (RField.category, u2)] =
      "Time".toList ++ ':' :: (tv ++ ',' ::
        (u1 ++ fieldArea rv tv cv nv [(RField.category, u2)])) := rfl
  have hexpC : fieldArea rv tv cv nv [(RField.category, u2)] =
      "Category".toList ++ ':' :: (cv ++ ',' :: (u2 ++ ['}'])) := rfl
  obtain ⟨cr, rs, hrv_eq⟩ : ∃ cr rs, rv = cr :: rs := by
    cases rv with
    | nil => exact absurd rfl hrv.1
    | cons a b => exact ⟨a, b, rfl⟩
  obtain ⟨cc, cs, hcv_eq⟩ : ∃ cc cs, cv = cc :: cs := by
    cases cv with
    | nil => exact absurd rfl hcv.1
    | cons a b => exact ⟨a, b, rfl⟩
  have hres : field_value ("Result".toList) [':'] alphanumeric1
      ("Result".toList ++ ':' :: (rv ++ ',' :: (u0 ++ fieldArea rv tv cv nv
        [(RField.time, u1), (RField.category, u2)]))) =
      some (u0 ++ fieldArea rv tv cv nv
        [(RField.time, u1), (RField.category, u2)], rv) :=
    field_value_line 'R' ("esult".toList) (by decide)
      ⟨cr, rs, hrv_eq, alnum_not_space (hrv.2 cr (by simp [hrv_eq]))⟩
      (alnum_value_fits hrv.1 hrv.2 _)
  obtain ⟨outT, houtT⟩ :=
    htv.2 (u1 ++ fieldArea rv tv cv nv [(RField.category, u2)])
  have htime : field_value ("Time".toList) [':'] float
      ("Time".toList ++ ':' :: (tv ++ ',' ::
        (u1 ++ fieldArea rv tv cv nv [(RField.category, u2)]))) =
      some (u1 ++ fieldArea rv tv cv nv [(RField.category, u2)], outT) :=
    field_value_line 'T' ("ime".toList) (by decide) htv.1 houtT
  have hcat : field_value ("Category".toList) [':'] alphanumeric1
      ("Category".toList ++ ':' :: (cv ++ ',' :: (u2 ++ ['}']))) =
      some (u2 ++ ['}'], cv) :=
    field_value_line 'C' ("ategory".toList) (by decide)
      ⟨cc, cs, hcv_eq, alnum_not_space (hcv.2 cc (by simp [hcv_eq]))⟩
      (alnum_value_fits hcv.1 hcv.2 _)
  unfold recipe_body
  rw [hTR]
  rw [pstep_some _ (separated_list1_ms_glueT hwsA
    (headChar_not_multispace RField.result) hstop hing1 hings)]
  rw [pstep_some _ (multispace1_append_stop wsA (headChar RField.result) TR
    hwsA.1 hwsA.2 (headChar_not_multispace RField.result))]
  rw [← hTR, hexpR]
  rw [pstep_some _ hres]
  rw [hTT]
  rw [pstep_some _ (multispace1_append_stop u0 (headChar RField.time) TT
    hu0.1 hu0.2 (headChar_not_multispace RField.time))]
  rw [← hTT, hexpT]
  rw [pstep_some _ htime]
  rw [hTC]
  rw [pstep_some _ (multispace1_append_stop u1 (headChar RField.category) TC
    hu1.1 hu1.2 (headChar_not_multispace RField.category))]
  rw [← hTC, hexpC]
  rw [pstep_some _ hcat]
  have hms3 : multispace1 (u2 ++ ['}']) = some (['}'], u2) :=
    multispace1_append_stop u2 '}' [] hu2.1 hu2.2 (by decide)
  rw [pstep_some _ hms3]
  have hfail : field_value ("NeedToBeLearn".toList) [':'] bool_value
      ['}'] = none :=
    field_value_stuck 'N' ("eedToBeLearn".toList) [] (by decide) (by decide)
  exact pstep_none _ hfail

/-- C5: the four recipe fields must appear in exactly the order
`Result`, `Time`, `Category`, `NeedToBeLearn`.  For every input of the
shape `recipe <Name> { <ingredients> <fields> }` — arbitrary name and
whitespace runs (as in C1), an arbitrary valid non-empty ingredient list
(each ingredient a text `recipe_ingredient` accepts exactly, via
`ItemSpec`), and arbitrary valid field values (`Result`/`Category`
values non-empty alphanumeric, the `Time` value any text nom's `float`
accepts exactly) — whose field lines appear in any order other than the
canonical one (any non-identity permutation, in particular `Category`
before `Time`), or with one field omitted, the `recipe` parser fails. -/
theorem recipe_rejects_field_disorder
    (Name w0 w1 w2 wsA t1 v1 : List Char)
    (ipairs : List (List Char × List Char)) (ivals : List (List Char))
    (fpairs : List (RField × List Char)) (rv tv cv nv : List Char)
    (hw0 : SpTabRun w0) (hw1 : WsRun w1) (hw2 : WsRun w2) (hwsA : WsRun wsA)
    (hN : Name ≠ []) (hNb : '{' ∉ Name)
    (hNh : ∀ c cs, Name = c :: cs → isNomSpace c = false)
    (hNl : ∀ c, Name.getLast? = some c → isRustWhitespace c = false)
    (hing1 : ItemSpec recipe_ingredient t1 v1)
    (hings : List.Forall₂
      (fun pr v => WsRun pr.1 ∧ ItemSpec recipe_ingredient pr.2 v)
      ipairs ivals)
    (hws : ∀ pr ∈ fpairs, WsRun pr.2)
    (hrv : rv ≠ [] ∧ ∀ x ∈ rv, x.isAlphanum = true)
    (htv : TimeValue tv)
    (hcv : cv ≠ [] ∧ ∀ x ∈ cv, x.isAlphanum = true)
    (hbad : ((fpairs.map Prod.fst).Perm canonicalOrder ∧
        fpairs.map Prod.fst ≠ canonicalOrder) ∨
      (∃ f, fpairs.map Prod.fst = canonicalOrder.erase f)) :
    recipe ("recipe".toList ++ (w0 ++ (Name ++ (w1 ++ '{' ::
      (w2 ++ (t1 ++ glueT ipairs
        (wsA ++ fieldArea rv tv cv nv fpairs))))))) = none := by
  obtain ⟨ct, cts, ht1, hct⟩ := hing1.1
  subst ht1
  have hbody : recipe_body ((ct :: cts) ++ glueT ipairs
      (wsA ++ fieldArea rv tv cv nv fpairs)) = none := by
    rcases hbad with ⟨hperm, hne⟩ | ⟨f, hmap⟩
    · have hlen : fpairs.length = 4 := by
        have h' := hperm.length_eq
        simpa using h'
      obtain ⟨f0, u0, f1, u1, f2, u2, f3, u3, rfl⟩ :
          ∃ f0 u0 f1 u1 f2 u2 f3 u3,
            fpairs = [(f0, u0), (f1, u1), (f2, u2), (f3, u3)] := by
        rcases fpairs with _ | ⟨⟨f0, u0⟩, _ | ⟨⟨f1, u1⟩, _ | ⟨⟨f2, u2⟩,
          _ | ⟨⟨f3, u3⟩, _ | ⟨p5, r5⟩⟩⟩⟩⟩
        · simp at hlen
        · simp at hlen
        · simp at hlen
        · simp at hlen
        · exact ⟨f0, u0, f1, u1, f2, u2, f3, u3, rfl⟩
        · simp only [List.length_cons] at hlen; omega
      simp only [List.map_cons, List.map_nil] at hperm hne
      cases f0 <;> cases f1 <;> cases f2 <;> cases f3 <;>
        first
        | exact recipe_body_fail_at_result hing1 hings hwsA (by decide)
        | exact recipe_body_fail_at_time hing1 hings hwsA
            (hws (RField.result, u0) (by simp)) hrv (by decide)
        | exact recipe_body_fail_at_category hing1 hings hwsA
            (hws (RField.result, u0) (by simp))
            (hws (RField.time, u1) (by simp)) hrv htv (by decide)
        | exact absurd rfl hne
        | exact absurd (hperm.count_eq RField.result) (by decide)
        | exact absurd (hperm.count_eq RField.time) (by decide)
        | exact absurd (hperm.count_eq RField.category) (by decide)
    · have hlen3 : fpairs.length = 3 := by
        have h' := congrArg List.length hmap
        simp only [List.length_map] at h'
        rw [h']
        cases f <;> decide
      obtain ⟨g0, x0, g1, x1, g2, x2, rfl⟩ :
          ∃ g0 x0 g1 x1 g2 x2, fpairs = [(g0, x0), (g1, x1), (g2, x2)] := by
        rcases fpairs with _ | ⟨⟨g0, x0⟩, _ | ⟨⟨g1, x1⟩,
          _ | ⟨⟨g2, x2⟩, _ | ⟨p4, r4⟩⟩⟩⟩
        · simp at hlen3
        · simp at hlen3
        · simp at hlen3
        · exact ⟨g0, x0, g1, x1, g2, x2, rfl⟩
        · simp only [List.length_cons] at hlen3; omega
      simp only [List.map_cons, List.map_nil] at hmap
      cases f
      · have e : canonicalOrder.erase RField.result =
            [RField.time, RField.category, RField.need] := by decide
        rw [e] at hmap
        injection hmap with h0 hmap1
        injection hmap1 with h1 hmap2
        injection hmap2 with h2 _
        subst h0; subst h1; subst h2
        exact recipe_body_fail_at_result hing1 hings hwsA (by decide)
      · have e : canonicalOrder.erase RField.time =
            [RField.result, RField.category, RField.need] := by decide
        rw [e] at hmap
        injection hmap with h0 hmap1
        injection hmap1 with h1 hmap2
        injection hmap2 with h2 _
        subst h0; subst h1; subst h2
        exact recipe_body_fail_at_time hing1 hings hwsA
          (hws (RField.result, x0) (by simp)) hrv (by decide)
      · have e : canonicalOrder.erase RField.category =
            [RField.result, RField.time, RField.need] := by decide
        rw [e] at hmap
        injection hmap with h0 hmap1
        injection hmap1 with h1 hmap2
        injection hmap2 with h2 _
        subst h0; subst h1; subst h2
        exact recipe_body_fail_at_category hing1 hings hwsA
          (hws (RField.result, x0) (by simp))
          (hws (RField.time, x1) (by simp)) hrv htv (by decide)
      · have e : canonicalOrder.erase RField.need =
            [RField.result, RField.time, RField.category] := by decide
        rw [e] at hmap
        injection hmap with h0 hmap1
        injection hmap1 with h1 hmap2
        injection hmap2 with h2 _
        subst h0; subst h1; subst h2
        exact recipe_body_fail_at_need hing1 hings hwsA
          (hws (RField.result, x0) (by simp))
          (hws (RField.time, x1) (by simp))
          (hws (RField.category, x2) (by simp)) hrv htv hcv
  exact recipe_none_of_body_none hw0 hw1 hw2 hN hNb hNh hNl hct hbody

/-- Witness for C5: the repository's own recipe with `Category` before
`Time` fails. -/
theorem recipe_rejects_field_disorder_witness :
    recipe (mkRecipeText [.result, .category, .time, .need]) = none := by
  have hing1 : ItemSpec recipe_ingredient ("GardeningSprayEmpty,".toList)
      ("GardeningSprayEmpty".toList) :=
    ingredient_item_spec ("GardeningSprayEmpty".toList) (by decide) (by decide)
  have hing2 : ItemSpec recipe_ingredient ("Base.Milk,".toList)
      ("Base.Milk".toList) :=
    ingredient_item_spec ("Base.Milk".toList) (by decide) (by decide)
  have e : mkRecipeText [.result, .category, .time, .need] =
      "recipe".toList ++ (" ".toList ++ ("Make Mildew Cure".toList ++
        ("\n".toList ++ '{' :: ("\n  ".toList ++
          ("GardeningSprayEmpty,".toList ++
            glueT [("\n  ".toList, "Base.Milk,".toList)]
              ("\n\n  ".toList ++
                fieldArea ("GardeningSprayMilk".toList) ("40.0".toList)
                  ("Farming".toList) ("true".toList)
                  [(RField.result, "\n  ".toList),
                   (RField.category, "\n  ".toList),
                   (RField.time, "\n  ".toList),
                   (RField.need, "\n".toList)]))))))
      := by decide
  rw [e]
  exact recipe_rejects_field_disorder
    ("Make Mildew Cure".toList) (" ".toList) ("\n".toList) ("\n  ".toList)
    ("\n\n  ".toList) ("GardeningSprayEmpty,".toList)
    ("GardeningSprayEmpty".toList)
    [("\n  ".toList, "Base.Milk,".toList)] ["Base.Milk".toList]
    [(RField.result, "\n  ".toList), (RField.category, "\n  ".toList),
     (RField.time, "\n  ".toList), (RField.need, "\n".toList)]
    ("GardeningSprayMilk".toList) ("40.0".toList) ("Farming".toList)
    ("true".toList)
    ⟨by decide, by decide⟩ ⟨by decide, by decide⟩ ⟨by decide, by decide⟩
    ⟨by decide, by decide⟩ (by decide) (by decide)
    (by
      intro c cs h
      rw [show "Make Mildew Cure".toList =
        'M' :: "ake Mildew Cure".toList from rfl] at h
      injection h with h1 _
      subst h1
      decide)
    (by
      intro c h
      rw [show ("Make Mildew Cure".toList).getLast? = some 'e' from rfl] at h
      injection h with h1
      subst h1
      decide)
    hing1
    (List.Forall₂.cons ⟨⟨by decide, by decide⟩, hing2⟩ List.Forall₂.nil)
    (by
      intro pr hpr
      simp only [List.mem_cons, List.not_mem_nil, or_false] at hpr
      rcases hpr with rfl | rfl | rfl | rfl <;> exact ⟨by decide, by decide⟩)
    ⟨by decide, by decide⟩ timeValue_forty ⟨by decide, by decide⟩
    (Or.inl ⟨by decide, by decide⟩)

/-! ### Result and Category values are alphanumeric-only (C6) -/

theorem alphanumeric1_sound {input rest v : Input}
    (h : alphanumeric1 input = some (rest, v)) :
    v ≠ [] ∧ ∀ c ∈ v, c.isAlphanum = true := by
  obtain ⟨hv, hne, -, -⟩ := split1_eq_some h
  refine ⟨hne, fun c hc => ?_⟩
  have hc' : c ∈ input.takeWhile (fun c => !(!(c.isAlphanum))) := hv ▸ hc
  have := List.mem_takeWhile_imp hc'
  simpa using this

theorem field_value_eq_some {α : Type} {fn sep : List Char}
    {value : Parser α} {input rest : Input} {v : α}
    (h : field_value fn sep value input = some (rest, v)) :
    ∃ i j, value i = some (j, v) := by
  unfold field_value at h
  obtain ⟨i1, x1, h1, h⟩ := pstep_eq_some.1 h
  obtain ⟨i2, x2, h2, h⟩ := pstep_eq_some.1 h
  obtain ⟨i3, x3, h3, h⟩ := pstep_eq_some.1 h
  obtain ⟨i4, x4, h4, h⟩ := pstep_eq_some.1 h
  obtain ⟨i5, x5, h5, h⟩ := pstep_eq_some.1 h
  obtain ⟨i6, x6, h6, h⟩ := pstep_eq_some.1 h
  obtain ⟨i7, x7, h7, h⟩ := pstep_eq_some.1 h
  injection h with h'
  injection h' with _ hv
  exact ⟨i5, i6, hv ▸ h6⟩

theorem recipe_fields_from_alphanumeric {input rest : Input} {r : Recipe}
    (h : recipe input = some (rest, r)) :
    (∃ i j, alphanumeric1 i = some (j, r.result)) ∧
    (∃ i j, alphanumeric1 i = some (j, r.category)) := by
  unfold recipe at h
  obtain ⟨i1, p1, h1, h⟩ := pstep_eq_some.1 h
  injection h with h'
  injection h' with _ hr
  unfold named_block at h1
  obtain ⟨j1, y1, hh1, h1⟩ := pstep_eq_some.1 h1
  obtain ⟨j2, y2, hh2, h1⟩ := pstep_eq_some.1 h1
  obtain ⟨j3, nm, hh3, h1⟩ := pstep_eq_some.1 h1
  obtain ⟨j4, y4, hh4, h1⟩ := pstep_eq_some.1 h1
  obtain ⟨j5, bodyVal, hh5, h1⟩ := pstep_eq_some.1 h1
  injection h1 with h1'
  injection h1' with _ hp1
  unfold block at hh5
  obtain ⟨k1, z1, hk1, hh5⟩ := pstep_eq_some.1 hh5
  obtain ⟨k2, z2, hk2, hh5⟩ := pstep_eq_some.1 hh5
  obtain ⟨k3, b, hk3, hh5⟩ := pstep_eq_some.1 hh5
  obtain ⟨k4, z4, hk4, hh5⟩ := pstep_eq_some.1 hh5
  obtain ⟨k5, z5, hk5, hh5⟩ := pstep_eq_some.1 hh5
  injection hh5 with hh5'
  injection hh5' with _ hbv
  unfold recipe_body at hk3
  obtain ⟨m1, ing, hm1, hk3⟩ := pstep_eq_some.1 hk3
  obtain ⟨m2, u2, hm2, hk3⟩ := pstep_eq_some.1 hk3
  obtain ⟨m3, res, hm3, hk3⟩ := pstep_eq_some.1 hk3
  obtain ⟨m4, u4, hm4, hk3⟩ := pstep_eq_some.1 hk3
  obtain ⟨m5, tm, hm5, hk3⟩ := pstep_eq_some.1 hk3
  obtain ⟨m6, u6, hm6, hk3⟩ := pstep_eq_some.1 hk3
  obtain ⟨m7, cat, hm7, hk3⟩ := pstep_eq_some.1 hk3
  obtain ⟨m8, u8, hm8, hk3⟩ := pstep_eq_some.1 hk3
  obtain ⟨m9, lrn, hm9, hk3⟩ := pstep_eq_some.1 hk3
  injection hk3 with hk3'
  injection hk3' with _ hb
  have hres : r.result = res := by
    rw [← hr, ← hp1, ← hbv, ← hb]
  have hcat : r.category = cat := by
    rw [← hr, ← hp1, ← hbv, ← hb]
  constructor
  · obtain ⟨i, j, hij⟩ := field_value_eq_some hm3
    exact ⟨i, j, hres ▸ hij⟩
  · obtain ⟨i, j, hij⟩ := field_value_eq_some hm7
    exact ⟨i, j, hcat ▸ hij⟩

/-- C6 counterexample: with the dotted value `Base.Milk` in the
`Result` field (everything else well-formed, as in the repository's own
test), the `recipe` parser fails — the code parses `Result` and
`Category` values with `alphanumeric1`, not with the dotted-identifier
recognizer. -/
theorem recipe_dotted_result_counterexample :
    recipe (("recipe Make Mildew Cure\n\x7b\n  GardeningSprayEmpty,\n" ++
        "  Base.Milk,\n\n  Result:Base.Milk,\n  Time:40.0,\n" ++
        "  Category:Farming,\n  NeedToBeLearn:true,\n\x7d").toList) = none := by
  decide

/-- C6 amended: the values of the `Result` and `Category` fields are
non-empty runs of ASCII alphanumeric characters only — dots are *not*
allowed there (they are allowed only in ingredient identifiers); a
dotted value such as `Result:Base.Milk,` fails to parse. -/
theorem recipe_result_category_alphanumeric :
    ∀ input rest r, recipe input = some (rest, r) →
      (r.result ≠ [] ∧ ∀ c ∈ r.result, c.isAlphanum = true) ∧
      (r.category ≠ [] ∧ ∀ c ∈ r.category, c.isAlphanum = true) := by
  intro input rest r h
  obtain ⟨⟨i, j, hres⟩, ⟨i', j', hcat⟩⟩ := recipe_fields_from_alphanumeric h
  exact ⟨alphanumeric1_sound hres, alphanumeric1_sound hcat⟩

/-- Witness for the amended C6 at the repository's test recipe. -/
theorem recipe_result_category_alphanumeric_witness :
    (("GardeningSprayMilk".toList ≠ [] ∧
      ∀ c ∈ "GardeningSprayMilk".toList, c.isAlphanum = true) ∧
     ("Farming".toList ≠ [] ∧
      ∀ c ∈ "Farming".toList, c.isAlphanum = true)) :=
  recipe_result_category_alphanumeric
    (("recipe Make Mildew Cure\n\x7b\n  GardeningSprayEmpty,\n" ++
        "  Base.Milk,\n\n  Result:GardeningSprayMilk,\n  Time:40.0,\n" ++
        "  Category:Farming,\n  NeedToBeLearn:true,\n\x7d").toList) []
    (Recipe.mk ("Make Mildew Cure".toList)
      [("GardeningSprayEmpty".toList), ("Base.Milk".toList)]
      ("GardeningSprayMilk".toList) (F32.finite 40) ("Farming".toList) true)
    (by decide)

/-! ### The time field need not be finite (C8) -/

/-- C8 counterexample: nom's `float` accepts the exceptional spelling
`inf`, so a recipe whose `Time` field is `Time:inf,` parses
successfully with an infinite time — refuting the claim that the time
of every successfully parsed recipe is finite. -/
theorem recipe_time_inf_counterexample :
    recipe (("recipe Cure\n\x7b\n  Milk,\n\n  Result:Spray,\n  Time:inf,\n" ++
        "  Category:Farming,\n  NeedToBeLearn:true,\n\x7d").toList) =
      some ([], Recipe.mk ("Cure".toList) [("Milk".toList)]
        ("Spray".toList) F32.inf ("Farming".toList) true) := by decide

/-- C8 amended: the grammar places no finiteness (or sign) constraint
on `Time`: `Time:NaN,` parses to a NaN time and `Time:-40.5,` to the
negative finite value `-40.5`; any value the float grammar accepts is
taken as-is. -/
theorem recipe_time_unconstrained :
    recipe (("recipe Cure\n\x7b\n  Milk,\n\n  Result:Spray,\n  Time:NaN,\n" ++
        "  Category:Farming,\n  NeedToBeLearn:true,\n\x7d").toList) =
      some ([], Recipe.mk ("Cure".toList) [("Milk".toList)]
        ("Spray".toList) F32.nan ("Farming".toList) true) ∧
    recipe (("recipe Cure\n\x7b\n  Milk,\n\n  Result:Spray,\n  Time:-40.5,\n" ++
        "  Category:Farming,\n  NeedToBeLearn:true,\n\x7d").toList) =
      some ([], Recipe.mk ("Cure".toList) [("Milk".toList)]
        ("Spray".toList) (F32.finite (-(81 / 2))) ("Farming".toList) true) := by
  constructor
  · decide
  · rw [show (-(81 / 2) : ℚ) = mkRat (-405) 10 by
      rw [Rat.mkRat_eq_div]; norm_num]
    decide

/-! ### Consumed prefix plus remainder reproduces the input (C10) -/

/-- A parser consumes a prefix: on success, the input splits as the
consumed prefix followed by the returned remainder. -/
def ConsumesPrefix {α : Type} (p : Parser α) : Prop :=
  ∀ input rest a, p input = some (rest, a) →
    input.take (input.length - rest.length) ++ rest = input

theorem SuffixSafe.consumesPrefix {α : Type} {p : Parser α}
    (h : SuffixSafe p) : ConsumesPrefix p := by
  intro input rest a hp
  obtain ⟨t, rfl⟩ := h input rest a hp
  have hlen : (t ++ rest).length - rest.length = t.length := by
    simp [List.length_append]
  rw [hlen, List.take_left]

/-- C10: every parser in the library — `block`, `unnamed_block`,
`named_block`, `named_block_repeated`, `field_value` (each assuming the
supplied sub-parser is itself suffix-safe), `module`, and the closed
`recipe` parser — returns on success a remainder that is a contiguous
suffix of its input: the consumed part is exactly the prefix preceding
the remainder, and their concatenation reproduces the input. -/
theorem library_parsers_split_input :
    (∀ (α : Type) (item : Parser α), SuffixSafe item →
      ConsumesPrefix (block item)) ∧
    (∀ (α : Type) (tg : List Char) (item : Parser α), SuffixSafe item →
      ConsumesPrefix (unnamed_block tg item)) ∧
    (∀ (α : Type) (tg : List Char) (item : Parser α), SuffixSafe item →
      ConsumesPrefix (named_block tg item)) ∧
    (∀ (α : Type) (tg : List Char) (item : Parser α), SuffixSafe item →
      ConsumesPrefix (named_block_repeated tg item)) ∧
    (∀ (α : Type) (fn sep : List Char) (value : Parser α),
      SuffixSafe value → ConsumesPrefix (field_value fn sep value)) ∧
    (∀ (α : Type) (item : Parser α), SuffixSafe item →
      ConsumesPrefix (module item)) ∧
    ConsumesPrefix recipe :=
  ⟨fun _ _ hi => (suffixSafe_block hi).consumesPrefix,
   fun _ tg _ hi => (suffixSafe_unnamed_block tg hi).consumesPrefix,
   fun _ tg _ hi => (suffixSafe_named_block tg hi).consumesPrefix,
   fun _ tg _ hi => (suffixSafe_named_block_repeated tg hi).consumesPrefix,
   fun _ fn sep _ hv => (suffixSafe_field_value fn sep hv).consumesPrefix,
   fun _ _ hi => (suffixSafe_module hi).consumesPrefix,
   suffixSafe_recipe.consumesPrefix⟩

/-- Input used by the C10 witness: a recipe followed by trailing text. -/
def recipeWithTail : List Char :=
  ("recipe Cure\n\x7b\n  Milk,\n\n  Result:Spray,\n  Time:40.0,\n" ++
   "  Category:Farming,\n  NeedToBeLearn:true,\n\x7d tail").toList

/-- Witness for C10: on a recipe input with trailing text, the consumed
prefix concatenated with the returned remainder `" tail"` is the
original input. -/
theorem library_parsers_split_input_witness :
    recipeWithTail.take (recipeWithTail.length - (" tail".toList).length) ++
      " tail".toList = recipeWithTail :=
  library_parsers_split_input.2.2.2.2.2.2 recipeWithTail (" tail".toList)
    (Recipe.mk ("Cure".toList) [("Milk".toList)] ("Spray".toList)
      (F32.finite 40) ("Farming".toList) true)
    (by decide)
